import Mathlib

/-!
Verification of the ghost-browse research pipeline (rate limiter, cache,
retry executor, scheduler join, confidence and cross-reference analyzer,
topic decomposer) against its natural-language specification.

The JavaScript sources are embedded shallowly: timestamps are `Nat`
milliseconds, the event-loop clock is explicit state, fallible operations
return `Option`/`Except`, and external capabilities (the WHATWG URL parser,
the producing pages) are parameters of the definitions.
-/

/-- Truthy-or-else on an optional string, modelling the JavaScript idiom
`a || b` where `a` may be `undefined`, `null` or the falsy empty string. -/
def jsOrStr (v : Option String) (d : String) : String :=
  match v with
  | none => d
  | some s => if s = "" then d else s

/-- Association-list lookup, modelling `map[key]` / `Map.get` on string keys. -/
def lookupKey {α : Type} (m : List (String × α)) (k : String) : Option α :=
  (m.find? (fun p => p.1 == k)).map (fun p => p.2)

/-- Association-list write, modelling `obj[key] = v` / `Map.set`: an existing
key is overwritten in place, a new key is appended at the end (JavaScript
object/Map insertion order). -/
def setKey {α : Type} (m : List (String × α)) (k : String) (v : α) : List (String × α) :=
  match m with
  | [] => [(k, v)]
  | (k1, v1) :: rest => if k1 == k then (k, v) :: rest else (k1, v1) :: setKey rest k v

/-- An item produced by one source (`deep-research.mjs`).  Only the
`url`/`title`/`text` fields take part in cross-referencing; every field may be
absent in the raw record, hence `Option`. -/
structure Item where
  url : Option String
  title : Option String
  text : Option String
deriving Repr, DecidableEq

/-- A per-source result as built by `searchWeb`/`searchTwitter`/… in
`deep-research.mjs`: the source name, its item list (empty on failure) and the
optional error message. -/
structure SourceResult where
  source : String
  results : List Item
  error : Option String
deriving Repr, DecidableEq

/-- Confidence classification levels of `computeConfidence`. -/
inductive ConfLevel
  | HIGH
  | MEDIUM
  | LOW
deriving Repr, DecidableEq

/-- The record returned by `computeConfidence` (the cosmetic emoji field is
omitted; it is a pure function of `level`). -/
structure ConfidenceReport where
  level : ConfLevel
  sourceCounts : List (String × Nat)
  totalResults : Nat
  sourcesWithData : Nat
deriving Repr, DecidableEq

/-- Shallow embedding of `computeConfidence` (`deep-research.mjs` lines
175-201): one pass accumulating per-source counts, the total result count and
the number of sources with data, then the ordered threshold classification. -/
def computeConfidence (allResults : List SourceResult) : ConfidenceReport :=
  let acc := allResults.foldl
    (fun (acc : List (String × Nat) × Nat × Nat) r =>
      let count := r.results.length
      (setKey acc.1 r.source count, acc.2.1 + count, acc.2.2 + if 0 < count then 1 else 0))
    ([], 0, 0)
  let level :=
    if 3 ≤ acc.2.2 ∧ 10 ≤ acc.2.1 then ConfLevel.HIGH
    else if 2 ≤ acc.2.2 ∧ 5 ≤ acc.2.1 then ConfLevel.MEDIUM
    else ConfLevel.LOW
  ConfidenceReport.mk level acc.1 acc.2.1 acc.2.2

/-- The fixed stop-word exclusion list of `decomposeTopic`. -/
def stopWords : List String :=
  ["the", "and", "for", "with", "from", "about", "how", "what", "why", "does", "are", "its"]

/-- The core-keyword phrase of `decomposeTopic`: lower-case, trim, split on
whitespace, keep words longer than two characters, drop stop words, join with
single spaces. -/
def coreKeywords (topic : String) : String :=
  let t := (topic.toLower).trim
  let words := (t.split (fun c => c.isWhitespace)).filter (fun w => 2 < w.length)
  let core := words.filter (fun w => ¬ stopWords.contains w)
  String.intercalate " " core

/-- A labelled sub-question with its query variants. -/
structure SubQuestion where
  label : String
  queries : List String
deriving Repr, DecidableEq

/-- Shallow embedding of `decomposeTopic` (`deep-research.mjs` lines 110-165):
a pure function from the topic string to five labelled sub-questions, each
with 2-3 query variants built from the core-keyword phrase. -/
def decomposeTopic (topic : String) : List SubQuestion :=
  let c := coreKeywords topic
  [ SubQuestion.mk "Overview & current state"
      [topic, c ++ " 2026 overview", c ++ " latest news"],
    SubQuestion.mk "Key players & projects"
      [c ++ " top companies projects", c ++ " leading players market"],
    SubQuestion.mk "Technical details"
      [c ++ " how it works technical", c ++ " architecture explained"],
    SubQuestion.mk "Challenges & risks"
      [c ++ " challenges problems risks", c ++ " criticism concerns"],
    SubQuestion.mk "Future outlook"
      [c ++ " future predictions trends", c ++ " roadmap next"] ]

/-- Helper: a blank item used to build concrete examples. -/
def blankItem : Item := Item.mk none none none

/-- Helper: a source result holding `n` opaque items. -/
def srcWith (name : String) (n : Nat) : SourceResult :=
  SourceResult.mk name (List.replicate n blankItem) none

lemma confLevel_classify_iff (s t : Nat) :
    ((if 3 ≤ s ∧ 10 ≤ t then ConfLevel.HIGH
      else if 2 ≤ s ∧ 5 ≤ t then ConfLevel.MEDIUM else ConfLevel.LOW) = ConfLevel.HIGH
        ↔ 3 ≤ s ∧ 10 ≤ t)
    ∧ ((if 3 ≤ s ∧ 10 ≤ t then ConfLevel.HIGH
      else if 2 ≤ s ∧ 5 ≤ t then ConfLevel.MEDIUM else ConfLevel.LOW) = ConfLevel.MEDIUM
        ↔ ¬ (3 ≤ s ∧ 10 ≤ t) ∧ (2 ≤ s ∧ 5 ≤ t))
    ∧ ((if 3 ≤ s ∧ 10 ≤ t then ConfLevel.HIGH
      else if 2 ≤ s ∧ 5 ≤ t then ConfLevel.MEDIUM else ConfLevel.LOW) = ConfLevel.LOW
        ↔ ¬ (3 ≤ s ∧ 10 ≤ t) ∧ ¬ (2 ≤ s ∧ 5 ≤ t)) := by
  by_cases h1 : 3 ≤ s ∧ 10 ≤ t <;> by_cases h2 : 2 ≤ s ∧ 5 ≤ t <;>
    simp [h1, h2]

lemma computeConfidence_level_eq (rs : List SourceResult) :
    (computeConfidence rs).level =
      (if 3 ≤ (computeConfidence rs).sourcesWithData
          ∧ 10 ≤ (computeConfidence rs).totalResults then ConfLevel.HIGH
       else if 2 ≤ (computeConfidence rs).sourcesWithData
          ∧ 5 ≤ (computeConfidence rs).totalResults then ConfLevel.MEDIUM
       else ConfLevel.LOW) := rfl

lemma computeConfidence_foldl_total (rs : List SourceResult)
    (sc : List (String × Nat)) (t s : Nat) :
    (rs.foldl
      (fun (acc : List (String × Nat) × Nat × Nat) r =>
        let count := r.results.length
        (setKey acc.1 r.source count, acc.2.1 + count, acc.2.2 + if 0 < count then 1 else 0))
      (sc, t, s)).2.1 = t + (rs.map (fun r => r.results.length)).sum := by
  induction rs generalizing sc t s with
  | nil => simp
  | cons r rest ih =>
    simp only [List.foldl_cons, List.map_cons, List.sum_cons]
    rw [ih]
    omega

lemma computeConfidence_foldl_sources (rs : List SourceResult)
    (sc : List (String × Nat)) (t s : Nat) :
    (rs.foldl
      (fun (acc : List (String × Nat) × Nat × Nat) r =>
        let count := r.results.length
        (setKey acc.1 r.source count, acc.2.1 + count, acc.2.2 + if 0 < count then 1 else 0))
      (sc, t, s)).2.2 = s + (rs.filter (fun r => 0 < r.results.length)).length := by
  induction rs generalizing sc t s with
  | nil => simp
  | cons r rest ih =>
    simp only [List.foldl_cons, List.filter_cons]
    by_cases h : 0 < r.results.length
    · simp only [h, if_pos, decide_true_eq_true]
      rw [ih]
      simp [h]
      omega
    · simp only [h, if_neg]
      rw [ih]
      simp [h]

/-- C6: for every list of source results, `computeConfidence` returns
`sourcesWithData` equal to the count of sources with a non-empty result list
and `totalResults` equal to the sum of all result-list lengths, classifies in
order (HIGH iff at least 3 sources and 10 results, else MEDIUM iff at least 2
sources and 5 results, else LOW), and on the concrete per-source counts
`[5,0,6,2]`, `[3,2,0,0]`, `[1,0,0,0]` yields HIGH, MEDIUM and LOW
respectively, and LOW on an all-empty input. -/
theorem computeConfidence_matches_spec (rs : List SourceResult) :
    (computeConfidence rs).sourcesWithData
        = (rs.filter (fun r => 0 < r.results.length)).length
    ∧ (computeConfidence rs).totalResults = (rs.map (fun r => r.results.length)).sum
    ∧ ((computeConfidence rs).level = ConfLevel.HIGH
        ↔ 3 ≤ (computeConfidence rs).sourcesWithData
          ∧ 10 ≤ (computeConfidence rs).totalResults)
    ∧ ((computeConfidence rs).level = ConfLevel.MEDIUM
        ↔ ¬ (3 ≤ (computeConfidence rs).sourcesWithData
              ∧ 10 ≤ (computeConfidence rs).totalResults)
          ∧ (2 ≤ (computeConfidence rs).sourcesWithData
              ∧ 5 ≤ (computeConfidence rs).totalResults))
    ∧ ((computeConfidence rs).level = ConfLevel.LOW
        ↔ ¬ (3 ≤ (computeConfidence rs).sourcesWithData
              ∧ 10 ≤ (computeConfidence rs).totalResults)
          ∧ ¬ (2 ≤ (computeConfidence rs).sourcesWithData
              ∧ 5 ≤ (computeConfidence rs).totalResults))
    ∧ (computeConfidence
        [srcWith "web" 5, srcWith "twitter" 0, srcWith "hn" 6, srcWith "github" 2]).level
        = ConfLevel.HIGH
    ∧ (computeConfidence
        [srcWith "web" 5, srcWith "twitter" 0, srcWith "hn" 6, srcWith "github" 2]).sourcesWithData = 3
    ∧ (computeConfidence
        [srcWith "web" 5, srcWith "twitter" 0, srcWith "hn" 6, srcWith "github" 2]).totalResults = 13
    ∧ (computeConfidence
        [srcWith "web" 3, srcWith "twitter" 2, srcWith "hn" 0, srcWith "github" 0]).level
        = ConfLevel.MEDIUM
    ∧ (computeConfidence
        [srcWith "web" 1, srcWith "twitter" 0, srcWith "hn" 0, srcWith "github" 0]).level
        = ConfLevel.LOW
    ∧ (computeConfidence
        [srcWith "web" 0, srcWith "twitter" 0, srcWith "hn" 0, srcWith "github" 0]).level
        = ConfLevel.LOW := by
  have hs := computeConfidence_foldl_sources rs [] 0 0
  have ht := computeConfidence_foldl_total rs [] 0 0
  have hcls := confLevel_classify_iff (computeConfidence rs).sourcesWithData
    (computeConfidence rs).totalResults
  refine ⟨?_, ?_, ?_, ?_, ?_, ?_, ?_, ?_, ?_, ?_, ?_⟩
  · simpa [computeConfidence] using hs
  · simpa [computeConfidence] using ht
  · rw [computeConfidence_level_eq rs]
    exact hcls.1
  · rw [computeConfidence_level_eq rs]
    exact hcls.2.1
  · rw [computeConfidence_level_eq rs]
    exact hcls.2.2
  · rfl
  · rfl
  · rfl
  · rfl
  · rfl
  · rfl

/-- C9: `decomposeTopic` returns exactly five labelled sub-questions with the
fixed labels, each query list built purely from the topic's core-keyword
phrase (stop-word filtering over the fixed exclusion list); it is a pure
function of the topic string, so two calls with the same topic yield
identical labels and query lists. -/
theorem decomposeTopic_matches_spec (topic : String) :
    (decomposeTopic topic).length = 5
    ∧ (decomposeTopic topic).map SubQuestion.label
        = ["Overview & current state", "Key players & projects", "Technical details",
           "Challenges & risks", "Future outlook"]
    ∧ (decomposeTopic topic).map SubQuestion.queries
        = [[topic, coreKeywords topic ++ " 2026 overview", coreKeywords topic ++ " latest news"],
           [coreKeywords topic ++ " top companies projects",
            coreKeywords topic ++ " leading players market"],
           [coreKeywords topic ++ " how it works technical",
            coreKeywords topic ++ " architecture explained"],
           [coreKeywords topic ++ " challenges problems risks",
            coreKeywords topic ++ " criticism concerns"],
           [coreKeywords topic ++ " future predictions trends",
            coreKeywords topic ++ " roadmap next"]]
    ∧ decomposeTopic topic = decomposeTopic topic
    ∧ (∀ t1 t2 : String, t1 = t2 → decomposeTopic t1 = decomposeTopic t2) := by
  refine ⟨rfl, rfl, rfl, rfl, ?_⟩
  intro t1 t2 h
  rw [h]

/-- Trace of one `withRetry(fn, opts)` run (`ghost-browse.mjs` lines 55-69 and
the identical copy in `fingerprint.mjs` lines 726-736).  `outcome` is
`Except.ok (some v)` when an attempt returned `v`, `Except.error e` when the
final attempt threw `e`, and `Except.ok none` for the degenerate fall-through
return (a non-positive attempt budget; JavaScript returns `undefined`).
`calls` counts invocations of the wrapped operation and `totalWaitMs` sums
the inter-attempt backoff sleeps. -/
structure RetryTrace (A : Type) where
  outcome : Except String (Option A)
  calls : Nat
  totalWaitMs : Nat

/-- The attempt loop of `withRetry`: `attempt` is the 1-indexed attempt
counter, the second argument the number of attempts still allowed
(`maxAttempts - attempt + 1`).  On failure of a non-final attempt it sleeps
`baseDelay * 2 ^ (attempt - 1)` and recurses; the failure of the final
attempt is rethrown unchanged. -/
def withRetryGo {A : Type} (fn : Nat → Except String A) (baseDelay : Nat) :
    Nat → Nat → RetryTrace A
  | _, 0 => RetryTrace.mk (Except.ok none) 0 0
  | attempt, remaining + 1 =>
    match fn attempt with
    | Except.ok v => RetryTrace.mk (Except.ok (some v)) 1 0
    | Except.error e =>
      if remaining = 0 then RetryTrace.mk (Except.error e) 1 0
      else
        let rest := withRetryGo fn baseDelay (attempt + 1) remaining
        RetryTrace.mk rest.outcome (rest.calls + 1)
          (rest.totalWaitMs + baseDelay * 2 ^ (attempt - 1))

/-- Shallow embedding of `withRetry`: the wrapped operation is modelled as a
function from the 1-indexed attempt number to that attempt's outcome. -/
def withRetry {A : Type} (fn : Nat → Except String A) (maxAttempts baseDelay : Nat) :
    RetryTrace A :=
  withRetryGo fn baseDelay 1 maxAttempts

/-- Sum of the exponential-backoff delays for `n` failed attempts starting at
attempt number `a`: `d*2^(a-1) + d*2^a + ...`. -/
def retryWaitSum (d : Nat) : Nat → Nat → Nat
  | _, 0 => 0
  | a, n + 1 => d * 2 ^ (a - 1) + retryWaitSum d (a + 1) n

/-- Whether an `Except` outcome is a success, ignoring the payloads. -/
def exceptIsOk {A : Type} : Except String A → Bool
  | Except.ok _ => true
  | Except.error _ => false

lemma withRetryGo_calls_le {A : Type} (fn : Nat → Except String A) (d : Nat) :
    ∀ r a, (withRetryGo fn d a r).calls ≤ r := by
  intro r
  induction r with
  | zero => intro a; simp [withRetryGo]
  | succ n ih =>
    intro a
    simp only [withRetryGo]
    cases fn a with
    | ok v => simp
    | error e =>
      by_cases h : n = 0
      · simp [h]
      · simp only [h, if_neg, if_false]
        have := ih (a + 1)
        simp
        omega

lemma withRetryGo_calls_pos {A : Type} (fn : Nat → Except String A) (d : Nat) :
    ∀ r a, 1 ≤ r → 1 ≤ (withRetryGo fn d a r).calls := by
  intro r a hr
  match r, hr with
  | n + 1, _ =>
    simp only [withRetryGo]
    cases fn a with
    | ok v => simp
    | error e =>
      by_cases h : n = 0
      · simp [h]
      · simp [h]

lemma withRetryGo_success {A : Type} (fn : Nat → Except String A) (d : Nat) :
    ∀ r a k v, a ≤ k → k < a + r → fn k = Except.ok v →
      (∀ j, a ≤ j → j < k → ∃ e, fn j = Except.error e) →
      withRetryGo fn d a r
        = RetryTrace.mk (Except.ok (some v)) (k - a + 1) (retryWaitSum d a (k - a)) := by
  intro r
  induction r with
  | zero => intro a k v hak hkr _ _; omega
  | succ n ih =>
    intro a k v hak hkr hok hfail
    simp only [withRetryGo]
    rcases Nat.eq_or_lt_of_le hak with heq | hlt
    · subst heq
      rw [hok]
      simp [retryWaitSum]
    · obtain ⟨e, he⟩ := hfail a (le_refl a) hlt
      rw [he]
      have hn : n ≠ 0 := by omega
      simp only [hn, if_neg, if_false]
      have hrec := ih (a + 1) k v (by omega) (by omega) hok
        (fun j h1 h2 => hfail j (by omega) h2)
      rw [hrec]
      simp only []
      have h1 : k - (a + 1) + 1 + 1 = k - a + 1 := by omega
      have h2 : k - a = (k - (a + 1)) + 1 := by omega
      rw [h1, h2]
      simp only [retryWaitSum]
      rw [Nat.add_comm (retryWaitSum d (a + 1) (k - (a + 1))) (d * 2 ^ (a - 1))]

lemma withRetryGo_allfail {A : Type} (fn : Nat → Except String A) (d : Nat) :
    ∀ r a e, 1 ≤ r →
      (∀ j, a ≤ j → j < a + r → ∃ e0, fn j = Except.error e0) →
      fn (a + r - 1) = Except.error e →
      withRetryGo fn d a r
        = RetryTrace.mk (Except.error e) r (retryWaitSum d a (r - 1)) := by
  intro r
  induction r with
  | zero => intro a e h; omega
  | succ n ih =>
    intro a e _ hfail hlast
    simp only [withRetryGo]
    by_cases hn : n = 0
    · subst hn
      have : a + 1 - 1 = a := by omega
      rw [this] at hlast
      rw [hlast]
      simp [retryWaitSum]
    · obtain ⟨e0, he0⟩ := hfail a (le_refl a) (by omega)
      rw [he0]
      simp only [hn, if_neg, if_false]
      have hlast2 : fn (a + 1 + n - 1) = Except.error e := by
        have : a + 1 + n - 1 = a + (n + 1) - 1 := by omega
        rw [this]; exact hlast
      have hrec := ih (a + 1) e (by omega)
        (fun j h1 h2 => hfail j (by omega) (by omega)) hlast2
      rw [hrec]
      simp only []
      have h2 : n + 1 - 1 = (n - 1) + 1 := by omega
      rw [h2]
      simp only [retryWaitSum]
      rw [Nat.add_comm (retryWaitSum d (a + 1) (n - 1)) (d * 2 ^ (a - 1))]

lemma withRetryGo_pattern {A : Type} (fn fn2 : Nat → Except String A) (d : Nat)
    (hpat : ∀ k, exceptIsOk (fn k) = exceptIsOk (fn2 k)) :
    ∀ r a, (withRetryGo fn d a r).calls = (withRetryGo fn2 d a r).calls
      ∧ (withRetryGo fn d a r).totalWaitMs = (withRetryGo fn2 d a r).totalWaitMs := by
  intro r
  induction r with
  | zero => intro a; simp [withRetryGo]
  | succ n ih =>
    intro a
    have h := hpat a
    simp only [withRetryGo]
    cases h1 : fn a with
    | ok v =>
      cases h2 : fn2 a with
      | ok w => simp
      | error e => rw [h1, h2] at h; simp [exceptIsOk] at h
    | error e =>
      cases h2 : fn2 a with
      | ok w => rw [h1, h2] at h; simp [exceptIsOk] at h
      | error e2 =>
        by_cases hn : n = 0
        · simp [hn]
        · simp only [hn, if_neg, if_false]
          have := ih (a + 1)
          exact ⟨by simp [this.1], by simp [this.2]⟩

/-- C4: `withRetry` invokes the operation at most `maxAttempts` times, stops at
the first success returning its value, sleeps `baseDelay * 2^(k-1)` after a
failed attempt `k < maxAttempts` (so the fail/fail/succeed run under
`maxAttempts = 3` waits `baseDelay + baseDelay*2` in total), and when the
final attempt fails it rethrows that final attempt's error unchanged. -/
theorem withRetry_matches_spec {A : Type} (fn : Nat → Except String A)
    (maxAttempts baseDelay : Nat) :
    (withRetry fn maxAttempts baseDelay).calls ≤ maxAttempts
    ∧ (∀ k v, 1 ≤ k → k ≤ maxAttempts → fn k = Except.ok v →
        (∀ j, 1 ≤ j → j < k → ∃ e, fn j = Except.error e) →
        withRetry fn maxAttempts baseDelay
          = RetryTrace.mk (Except.ok (some v)) k (retryWaitSum baseDelay 1 (k - 1)))
    ∧ (∀ e, 1 ≤ maxAttempts →
        (∀ j, 1 ≤ j → j < maxAttempts → ∃ e0, fn j = Except.error e0) →
        fn maxAttempts = Except.error e →
        withRetry fn maxAttempts baseDelay
          = RetryTrace.mk (Except.error e) maxAttempts
              (retryWaitSum baseDelay 1 (maxAttempts - 1)))
    ∧ retryWaitSum baseDelay 1 2 = baseDelay + baseDelay * 2 := by
  refine ⟨withRetryGo_calls_le fn baseDelay maxAttempts 1, ?_, ?_, ?_⟩
  · intro k v h1 h2 hok hfail
    have h := withRetryGo_success fn baseDelay maxAttempts 1 k v h1 (by omega) hok hfail
    have hk : k - 1 + 1 = k := by omega
    rw [withRetry, h, hk]
  · intro e h1 hfail hlast
    have hl : fn (1 + maxAttempts - 1) = Except.error e := by
      have : 1 + maxAttempts - 1 = maxAttempts := by omega
      rw [this]; exact hlast
    have h := withRetryGo_allfail fn baseDelay maxAttempts 1 e h1
      (fun j hj1 hj2 => by
        rcases Nat.lt_or_ge j maxAttempts with hlt | hge
        · exact hfail j hj1 hlt
        · have hj : j = maxAttempts := by omega
          rw [hj]
          exact ⟨e, hlast⟩) hl
    rw [withRetry, h]
  · simp [retryWaitSum]

/-- An operation that fails on attempts 1 and 2 and succeeds on attempt 3,
used to witness the retry contract concretely. -/
def fnFF : Nat → Except String Nat := fun k =>
  match k with
  | 1 => Except.error "boom1"
  | 2 => Except.error "boom2"
  | _ => Except.ok 42

/-- Witness for C4: the fail/fail/succeed operation run with `maxAttempts = 3`
and `baseDelay = 100` returns 42 after 3 calls and 300 ms of waits, and run
with `maxAttempts = 2` rethrows the attempt-2 error, not the attempt-1 one. -/
theorem withRetry_matches_spec_witness :
    withRetry fnFF 3 100 = RetryTrace.mk (Except.ok (some 42)) 3 300
    ∧ withRetry fnFF 2 100 = RetryTrace.mk (Except.error "boom2") 2 100 := by
  constructor
  · have h := (withRetry_matches_spec fnFF 3 100).2.1 3 42 (by omega) (by omega) rfl
      (by
        intro j hj1 hj2
        rcases j with _ | _ | _ | j
        · omega
        · exact ⟨"boom1", rfl⟩
        · exact ⟨"boom2", rfl⟩
        · omega)
    rw [h]
    rfl
  · have h := (withRetry_matches_spec fnFF 2 100).2.2.1 "boom2" (by omega)
      (by
        intro j hj1 hj2
        rcases j with _ | _ | j
        · omega
        · exact ⟨"boom1", rfl⟩
        · omega)
      rfl
    rw [h]
    rfl

/-- An operation whose first attempt fails with an outer-deadline cancellation
error and whose second attempt succeeds. -/
def fnCancelled : Nat → Except String Nat := fun k =>
  match k with
  | 1 => Except.error "TimeoutError: outer deadline exceeded"
  | _ => Except.ok 7

/-- C5 counterexample: the claim says a cancellation/timeout error from an
outer deadline propagates immediately out of `withRetry` without further
attempts; but on an operation whose attempt 1 throws exactly such an error
(with `maxAttempts = 3`), `withRetry` invokes the operation a second time and
returns the attempt-2 success instead of propagating the error. -/
theorem withRetry_cancellation_counterexample :
    fnCancelled 1 = Except.error "TimeoutError: outer deadline exceeded"
    ∧ (withRetry fnCancelled 3 100).calls = 2
    ∧ (withRetry fnCancelled 3 100).outcome = Except.ok (some 7) :=
  ⟨rfl, rfl, rfl⟩

/-- C5 (amended): `withRetry` treats every error uniformly — its control flow
(number of calls and accumulated waits) depends only on the success/failure
pattern of the attempts, never on the error values, so a cancellation or
timeout error thrown by an outer deadline on attempt 1 is retried like any
other error whenever `2 ≤ maxAttempts`, and propagates out only when it
occurs on the final attempt (here: `maxAttempts = 1`). -/
theorem withRetry_no_cancellation_shortcut {A : Type} (fn fn2 : Nat → Except String A)
    (m d : Nat) (e : String) :
    ((∀ k, exceptIsOk (fn k) = exceptIsOk (fn2 k)) →
      (withRetry fn m d).calls = (withRetry fn2 m d).calls
        ∧ (withRetry fn m d).totalWaitMs = (withRetry fn2 m d).totalWaitMs)
    ∧ (fn 1 = Except.error e → 2 ≤ m → 2 ≤ (withRetry fn m d).calls)
    ∧ (fn 1 = Except.error e → m = 1 → (withRetry fn m d).outcome = Except.error e) := by
  refine ⟨?_, ?_, ?_⟩
  · intro hpat
    exact withRetryGo_pattern fn fn2 d hpat m 1
  · intro hfn hm
    match m, hm with
    | n + 2, _ =>
      have h1 : withRetry fn (n + 2) d
          = (match fn 1 with
             | Except.ok v => RetryTrace.mk (Except.ok (some v)) 1 0
             | Except.error e0 =>
               if n + 1 = 0 then RetryTrace.mk (Except.error e0) 1 0
               else
                 let rest := withRetryGo fn d 2 (n + 1)
                 RetryTrace.mk rest.outcome (rest.calls + 1)
                   (rest.totalWaitMs + d * 2 ^ (1 - 1))) := rfl
      rw [h1, hfn]
      have hpos := withRetryGo_calls_pos fn d (n + 1) 2 (by omega)
      show 2 ≤ (withRetryGo fn d 2 (n + 1)).calls + 1
      omega
  · intro hfn hm
    subst hm
    have h1 : withRetry fn 1 d
        = (match fn 1 with
           | Except.ok v => RetryTrace.mk (Except.ok (some v)) 1 0
           | Except.error e0 =>
             if (0 : Nat) = 0 then RetryTrace.mk (Except.error e0) 1 0
             else
               let rest := withRetryGo fn d 2 0
               RetryTrace.mk rest.outcome (rest.calls + 1)
                 (rest.totalWaitMs + d * 2 ^ (1 - 1))) := rfl
    rw [h1, hfn]
    rfl

/-- Witness for the amended C5: concretely, `withRetry` on the
cancellation-failing operation with `maxAttempts = 3` performs a second call
(no immediate propagation), and with `maxAttempts = 1` it propagates the
cancellation error because attempt 1 is the final attempt. -/
theorem withRetry_no_cancellation_shortcut_witness :
    2 ≤ (withRetry fnCancelled 3 100).calls
    ∧ (withRetry fnCancelled 1 100).outcome
        = Except.error "TimeoutError: outer deadline exceeded" := by
  constructor
  · exact (withRetry_no_cancellation_shortcut fnCancelled fnCancelled 3 100
      "TimeoutError: outer deadline exceeded").2.1 rfl (by omega)
  · exact (withRetry_no_cancellation_shortcut fnCancelled fnCancelled 1 100
      "TimeoutError: outer deadline exceeded").2.2 rfl rfl

/-- Witness for C9 at a concrete topic: five sub-questions and identical
results across two calls. -/
theorem decomposeTopic_matches_spec_witness :
    (decomposeTopic "impact of AI on healthcare").length = 5
    ∧ decomposeTopic "impact of AI on healthcare"
        = decomposeTopic "impact of AI on healthcare" :=
  ⟨(decomposeTopic_matches_spec "impact of AI on healthcare").1,
   (decomposeTopic_matches_spec "impact of AI on healthcare").2.2.2.2
     "impact of AI on healthcare" "impact of AI on healthcare" rfl⟩

/-- The page payload written to the cache by `readPage`
(`deep-research.mjs`): title, url and extracted text content. -/
structure PageData where
  title : String
  url : String
  content : String
deriving Repr, DecidableEq

/-- The record stored in a well-formed cache file by `setCache`
(`cache.mjs` line 39): the merge `{url, cachedAt, ...data}`, where the spread
of `data` supplies `url`, `title` and `content` and `cachedAt` is the ISO
write timestamp. -/
structure CacheValue where
  url : String
  cachedAtIso : String
  title : String
  content : String
deriving Repr, DecidableEq

/-- Content of one on-disk cache file: either bytes that `JSON.parse`
accepts (a `CacheValue`), or bytes it throws on. -/
inductive CacheBlob
  | parsed (v : CacheValue)
  | corrupt (raw : String)
deriving Repr, DecidableEq

/-- One cache file: the filesystem modification time `statSync` reports plus
the stored bytes. -/
structure CacheFile where
  mtimeMs : Nat
  blob : CacheBlob
deriving Repr, DecidableEq

/-- The cache directory: file name key (the URL hash) to file. -/
structure CacheState where
  files : List (String × CacheFile)
deriving Repr, DecidableEq

/-- Deletion of a cache file (`unlinkSync`). -/
def removeKey {α : Type} (m : List (String × α)) (k : String) : List (String × α) :=
  m.filter (fun p => ¬ (p.1 == k))

/-- Shallow embedding of `getCached` (`cache.mjs` lines 19-33): miss when the
file is absent; if the file's age `now - mtime` strictly exceeds `ttlMs`,
delete it and miss; otherwise parse it, a parse failure being caught and
treated as a miss.  The URL hashing (`md5`) is an external primitive and is a
parameter.  The function is total: no failure propagates to the caller. -/
def getCached (hash : String → String) (s : CacheState) (url : String)
    (now ttlMs : Nat) : Option CacheValue × CacheState :=
  let key := hash url
  match lookupKey s.files key with
  | none => (none, s)
  | some f =>
    if ttlMs < now - f.mtimeMs then
      (none, CacheState.mk (removeKey s.files key))
    else
      match f.blob with
      | CacheBlob.parsed v => (some v, s)
      | CacheBlob.corrupt _ => (none, s)

/-- Shallow embedding of `setCache` (`cache.mjs` lines 35-40): unconditionally
overwrite the file for the URL's hash with the merged record; the file's
mtime becomes the write instant. -/
def setCache (hash : String → String) (s : CacheState) (url : String)
    (d : PageData) (now : Nat) (iso : String) : CacheState :=
  CacheState.mk (setKey s.files (hash url)
    (CacheFile.mk now (CacheBlob.parsed (CacheValue.mk d.url iso d.title d.content))))

/-- The value `readPage` returns on a cache hit (`deep-research.mjs` lines
526-528): the cached record spread plus `fromCache: true`. -/
structure PageReadResult where
  url : String
  cachedAtIso : String
  title : String
  content : String
  fromCache : Bool
deriving Repr, DecidableEq

/-- The cache-probe prefix of `readPage`: on a `getCached` hit return the
cached record plus `fromCache = true`, otherwise report a miss. -/
def readPageCacheCheck (hash : String → String) (s : CacheState) (url : String)
    (now ttlMs : Nat) : Option PageReadResult × CacheState :=
  match getCached hash s url now ttlMs with
  | (some v, s2) => (some (PageReadResult.mk v.url v.cachedAtIso v.title v.content true), s2)
  | (none, s2) => (none, s2)

lemma lookupKey_setKey_self {α : Type} (m : List (String × α)) (k : String) (v : α) :
    lookupKey (setKey m k v) k = some v := by
  induction m with
  | nil => simp [setKey, lookupKey]
  | cons p rest ih =>
    obtain ⟨k1, v1⟩ := p
    simp only [setKey]
    by_cases h : k1 == k
    · simp [h, lookupKey]
    · simp only [h, if_neg, if_false]
      simp only [lookupKey, List.find?] at ih ⊢
      simp only [h]
      exact ih

lemma lookupKey_setKey_other {α : Type} (m : List (String × α)) (k k2 : String) (v : α)
    (h : k2 ≠ k) :
    lookupKey (setKey m k v) k2 = lookupKey m k2 := by
  induction m with
  | nil =>
    simp only [setKey, lookupKey, List.find?]
    have : (k == k2) = false := by
      simp [beq_iff_eq]
      exact fun he => h he.symm
    simp [this]
  | cons p rest ih =>
    obtain ⟨k1, v1⟩ := p
    simp only [setKey]
    by_cases hk : k1 == k
    · have hk1 : k1 = k := by simpa [beq_iff_eq] using hk
      subst hk1
      have h1 : (k1 == k2) = false := by
        simp [beq_iff_eq]
        exact fun he => h he.symm
      simp [hk, lookupKey, List.find?, h1]
    · simp only [hk, if_neg, if_false]
      simp only [lookupKey, List.find?] at ih ⊢
      by_cases h2 : k1 == k2
      · simp [h2]
      · simp only [h2]
        exact ih

lemma lookupKey_removeKey_self {α : Type} (m : List (String × α)) (k : String) :
    lookupKey (removeKey m k) k = none := by
  induction m with
  | nil => simp [removeKey, lookupKey]
  | cons p rest ih =>
    obtain ⟨k1, v1⟩ := p
    simp only [removeKey, List.filter] at ih ⊢
    by_cases h : k1 == k
    · simp only [h]
      simp only [decide_not, Bool.not_true, decide_true_eq_true] at ih ⊢
      exact ih
    · simp only [h]
      simp only [Bool.not_false, decide_not]
      simp only [lookupKey, List.find?] at ih ⊢
      simp only [h]
      simp

/-- C3: `setCache(u, d)` at time `tw` immediately followed by the `readPage`
cache probe with any `ttl > 0` returns the stored data `d` (title, url,
content unchanged) plus `fromCache = true` (the record also carries the ISO
write timestamp `setCache` added); and a read whose elapsed time since the
write strictly exceeds `ttl` returns `none` and deletes the expired entry
from the cache. -/
theorem cache_roundtrip_matches_spec (hash : String → String) (s : CacheState)
    (u : String) (d : PageData) (tw : Nat) (iso : String) (ttl tr : Nat) :
    0 < ttl →
    ((readPageCacheCheck hash (setCache hash s u d tw iso) u tw ttl).1
        = some (PageReadResult.mk d.url iso d.title d.content true))
    ∧ (ttl < tr - tw →
        (getCached hash (setCache hash s u d tw iso) u tr ttl).1 = none
        ∧ lookupKey (getCached hash (setCache hash s u d tw iso) u tr ttl).2.files
            (hash u) = none) := by
  intro httl
  have hlook : lookupKey (setCache hash s u d tw iso).files (hash u)
      = some (CacheFile.mk tw (CacheBlob.parsed (CacheValue.mk d.url iso d.title d.content))) := by
    simp [setCache, lookupKey_setKey_self]
  constructor
  · have hfresh : ¬ (ttl < tw - tw) := by omega
    simp [readPageCacheCheck, getCached, hlook, hfresh]
  · intro hexp
    have hget : getCached hash (setCache hash s u d tw iso) u tr ttl
        = (none, CacheState.mk (removeKey (setCache hash s u d tw iso).files (hash u))) := by
      simp [getCached, hlook, hexp]
    rw [hget]
    exact ⟨rfl, lookupKey_removeKey_self _ _⟩

/-- Witness for C3: a concrete write at time 5 read back at time 5 with
ttl 1000 returns the data with `fromCache = true`; read at time 2000 the
entry is expired, the probe misses and the file is gone. -/
theorem cache_roundtrip_matches_spec_witness :
    ((readPageCacheCheck (fun x => x)
        (setCache (fun x => x) (CacheState.mk []) "https://a.example/p"
          (PageData.mk "Title" "https://a.example/p" "Body") 5 "2026-01-01") "https://a.example/p" 5 1000).1
        = some (PageReadResult.mk "https://a.example/p" "2026-01-01" "Title" "Body" true))
    ∧ ((getCached (fun x => x)
        (setCache (fun x => x) (CacheState.mk []) "https://a.example/p"
          (PageData.mk "Title" "https://a.example/p" "Body") 5 "2026-01-01") "https://a.example/p" 2000 1000).1 = none) := by
  have h := cache_roundtrip_matches_spec (fun x => x) (CacheState.mk [])
    "https://a.example/p" (PageData.mk "Title" "https://a.example/p" "Body")
    5 "2026-01-01" 1000 2000 (by omega)
  exact ⟨h.1, (h.2 (by omega)).1⟩

/-- C8: a stored cache entry whose bytes `JSON.parse` rejects is treated as a
cache miss — `getCached` returns `null` — and the parse failure is caught
inside `getCached`, never reaching the caller (the embedding is a total
function into `Option`). -/
theorem getCached_corrupt_is_miss (hash : String → String) (s : CacheState)
    (u : String) (now ttl mt : Nat) (raw : String) :
    lookupKey s.files (hash u) = some (CacheFile.mk mt (CacheBlob.corrupt raw)) →
    (getCached hash s u now ttl).1 = none := by
  intro hlook
  by_cases hexp : ttl < now - mt
  · simp [getCached, hlook, hexp]
  · simp [getCached, hlook, hexp]

/-- Witness for C8: a concrete cache holding one unparseable file misses. -/
theorem getCached_corrupt_is_miss_witness :
    (getCached (fun _ => "k")
      (CacheState.mk [("k", CacheFile.mk 0 (CacheBlob.corrupt "not json"))])
      "https://x.example" 100 600000).1 = none :=
  getCached_corrupt_is_miss (fun _ => "k")
    (CacheState.mk [("k", CacheFile.mk 0 (CacheBlob.corrupt "not json"))])
    "https://x.example" 100 600000 0 "not json" rfl

/-- Behaviour of the source-specific producer inside one scheduler job:
either it yields an item list or it throws. -/
inductive ProducerBehavior
  | yields (items : List Item)
  | throws (msg : String)
deriving Repr, DecidableEq

/-- One submitted source job: its source name, its producer's behaviour, and
how long the job's promise takes to settle (milliseconds). -/
structure JobSpec where
  source : String
  behavior : ProducerBehavior
  durationMs : Nat
deriving Repr, DecidableEq

/-- The common try/catch body of `searchWeb`/`searchTwitter`/`searchReddit`/
`searchHN`/`searchGitHub` (`deep-research.mjs`): a producer throw is caught
inside the source function and becomes a fulfilled `SourceResult` with empty
`results` and the error message; a yield becomes a fulfilled result with
the items and no error. -/
def runSourceJob (name : String) (b : ProducerBehavior) : SourceResult :=
  match b with
  | ProducerBehavior.yields items => SourceResult.mk name items none
  | ProducerBehavior.throws m => SourceResult.mk name [] (some m)

/-- One settled promise as seen by `Promise.allSettled`. -/
inductive Settled
  | fulfilled (r : SourceResult)
  | rejected (msg : String)
deriving Repr, DecidableEq

/-- The per-source timeout of `deep-research.mjs` line 774 (30 s). -/
def SOURCE_TIMEOUT : Nat := 30000

/-- `withTimeout` (`deep-research.mjs` lines 775-780): race the job promise
against a timer that rejects after `SOURCE_TIMEOUT`; a job slower than the
timer settles rejected, otherwise it settles with the job's own result. -/
def withTimeout (label : String) (j : JobSpec) : Settled :=
  if SOURCE_TIMEOUT < j.durationMs then
    Settled.rejected (label ++ " timed out after 30s")
  else
    Settled.fulfilled (runSourceJob j.source j.behavior)

/-- The `searchJobs.map((job, i) => withTimeout(job, Source i))` wrapping:
each job is raced against the timeout under its positional label. -/
def labelJobs (i : Nat) : List JobSpec → List Settled
  | [] => []
  | j :: rest => withTimeout ("Source " ++ toString i) j :: labelJobs (i + 1) rest

/-- The scheduler join (`deep-research.mjs` lines 782-788):
`Promise.allSettled` never rejects (the embedding is a total function — no
exception escapes the join), and the `forEach` afterwards pushes fulfilled
values into `allResults` while rejected settlements are only logged and
contribute nothing. -/
def runAllJoin (jobs : List JobSpec) : List SourceResult :=
  (labelJobs 0 jobs).filterMap
    (fun s => match s with
      | Settled.fulfilled r => some r
      | Settled.rejected _ => none)

/-- A job that settles only after 40 s, i.e. beyond the 30 s per-job
timeout, with a producer that would have yielded one item. -/
def slowJob : JobSpec :=
  JobSpec.mk "web" (ProducerBehavior.yields [blankItem]) 40000

/-- The concrete 4-job scenario of the claim: job 2 always throws, jobs
1, 3 and 4 yield one item each, all within the timeout. -/
def fourJobs : List JobSpec :=
  [ JobSpec.mk "web" (ProducerBehavior.yields [blankItem]) 1000,
    JobSpec.mk "twitter" (ProducerBehavior.throws "boom") 1000,
    JobSpec.mk "reddit" (ProducerBehavior.yields [blankItem]) 1000,
    JobSpec.mk "hn" (ProducerBehavior.yields [blankItem]) 1000 ]

/-- C1 counterexample: the claim says the join returns exactly one
`SourceResult` per submitted job, a timed-out job contributing a result with
empty `results` and a populated `error`; but submitting one job that exceeds
the 30 s per-job timeout yields an empty result array (0 results for 1 job) —
the rejected settlement is logged and dropped, not converted into an error
entry. -/
theorem runAllJoin_timeout_counterexample :
    [slowJob].length = 1
    ∧ SOURCE_TIMEOUT < slowJob.durationMs
    ∧ runAllJoin [slowJob] = []
    ∧ (runAllJoin [slowJob]).length = 0 :=
  ⟨rfl, by decide, rfl, rfl⟩

lemma labelJobs_filterMap (jobs : List JobSpec) :
    ∀ i, (labelJobs i jobs).filterMap
      (fun s => match s with
        | Settled.fulfilled r => some r
        | Settled.rejected _ => none)
      = (jobs.filter (fun j => j.durationMs ≤ SOURCE_TIMEOUT)).map
          (fun j => runSourceJob j.source j.behavior) := by
  induction jobs with
  | nil => intro i; rfl
  | cons j rest ih =>
    intro i
    by_cases h : SOURCE_TIMEOUT < j.durationMs
    · have h2 : ¬ (j.durationMs ≤ SOURCE_TIMEOUT) := by omega
      simp [labelJobs, withTimeout, h, h2, List.filterMap_cons, List.filter_cons, ih (i + 1)]
    · have h2 : j.durationMs ≤ SOURCE_TIMEOUT := by omega
      simp [labelJobs, withTimeout, h, h2, List.filterMap_cons, List.filter_cons, ih (i + 1)]

/-- C1 (amended): the join returns exactly one `SourceResult` per job that
settles within the per-job timeout, in submission order: `runAllJoin` equals
the map of `runSourceJob` over the jobs not exceeding the timeout.  A job
whose producer throws is caught inside its source function and contributes a
result with empty `results` and a populated `error`; a job that exceeds the
timeout contributes nothing (its rejection is logged and dropped); nothing
escapes the join (it is a total function).  In the 4-job scenario with job 2
throwing, the join returns 4 results, jobs 1/3/4 with non-empty results and
no error and job 2 with empty results and a populated error. -/
theorem runAllJoin_matches_amended_spec (jobs : List JobSpec) :
    runAllJoin jobs
        = (jobs.filter (fun j => j.durationMs ≤ SOURCE_TIMEOUT)).map
            (fun j => runSourceJob j.source j.behavior)
    ∧ (∀ name m, runSourceJob name (ProducerBehavior.throws m)
        = SourceResult.mk name [] (some m))
    ∧ (∀ name items, runSourceJob name (ProducerBehavior.yields items)
        = SourceResult.mk name items none)
    ∧ runAllJoin fourJobs
        = [ SourceResult.mk "web" [blankItem] none,
            SourceResult.mk "twitter" [] (some "boom"),
            SourceResult.mk "reddit" [blankItem] none,
            SourceResult.mk "hn" [blankItem] none ]
    ∧ (runAllJoin fourJobs).length = fourJobs.length :=
  ⟨labelJobs_filterMap jobs 0, fun _ _ => rfl, fun _ _ => rfl, rfl, rfl⟩

/-- A configured rate limit: `requests` per sliding window of `perMs`
milliseconds (`config.mjs` `rateLimits` entries). -/
structure RateLimit where
  requests : Nat
  perMs : Nat
deriving Repr, DecidableEq

/-- Whether the second character list is an initial segment of the first. -/
def charListStartsWith : List Char → List Char → Bool
  | _, [] => true
  | [], _ :: _ => false
  | a :: s, b :: p => a == b && charListStartsWith s p

/-- Whether the second character list occurs contiguously in the first. -/
def charListContains : List Char → List Char → Bool
  | [], pat => charListStartsWith [] pat
  | a :: rest, pat => charListStartsWith (a :: rest) pat || charListContains rest pat

/-- `String.prototype.includes`: the pattern occurs somewhere in the
string. -/
def jsIncludes (s pat : String) : Bool :=
  charListContains s.toList pat.toList

/-- Shallow embedding of `getDomain` (`rate-limiter.mjs` lines 381-390): a
string containing `://` is handed to the URL parser (an external capability,
passed as `parseHostname`; `none` models the constructor throwing, caught by
the surrounding try/catch which falls back to the raw input); anything else
is already a domain and is returned unchanged. -/
def getDomain (parseHostname : String → Option String) (u : String) : String :=
  if jsIncludes u "://" then
    match parseHostname u with
    | some h => h
    | none => u
  else u

/-- The `limits.default || { requests: 20, perMs: 60000 }` fallback. -/
def defaultLimit (limits : List (String × RateLimit)) : RateLimit :=
  (lookupKey limits "default").getD (RateLimit.mk 20 60000)

/-- Shallow embedding of `getLimit` (`rate-limiter.mjs` lines 392-404): exact
key first, then the parent formed from the last two dot-separated labels
(only when the domain has more than two labels), then the default entry. -/
def getLimit (limits : List (String × RateLimit)) (domain : String) : RateLimit :=
  match lookupKey limits domain with
  | some l => l
  | none =>
    let parts := domain.splitOn "."
    if 2 < parts.length then
      match lookupKey limits (String.intercalate "." (parts.drop (parts.length - 2))) with
      | some l => l
      | none => defaultLimit limits
    else defaultLimit limits

/-- The rate limiter's state: the module-level `requestLog` map (domain to
its ordered request timestamps) plus the explicit event-loop clock
(`Date.now()`). -/
structure RLState where
  log : List (String × List Nat)
  clock : Nat
deriving Repr, DecidableEq

/-- The `while (log.length && log[0] < cutoff) log.shift()` pruning loop:
drop leading timestamps strictly below the cutoff. -/
def pruneOld : List Nat → Nat → List Nat
  | [], _ => []
  | t :: rest, cutoff => if t < cutoff then pruneOld rest cutoff else t :: rest

/-- The request log of one domain (`requestLog.get(domain)`, the absent and
the freshly-created-empty entry both reading as `[]`). -/
def logOf (s : RLState) (d : String) : List Nat :=
  (lookupKey s.log d).getD []

/-- The wait decision of the full-window branch: `waitMs = log[0] + perMs -
now + 100`; a positive wait advances the clock by `waitMs`, otherwise (also
when `log[0]` is `undefined`, making `waitMs` `NaN`) the clock is unchanged. -/
def slotNow2 (limit : RateLimit) (now : Nat) : List Nat → Nat
  | [] => now
  | t :: _ =>
    let w : Int := (t : Int) + limit.perMs - now + 100
    if 0 < w then now + w.toNat else now

/-- Shallow embedding of `waitForSlot` (`rate-limiter.mjs` lines 411-442):
resolve the domain and its limit, prune entries outside the window, and if
the window is full sleep until the oldest entry leaves the window (plus a
100 ms buffer), re-prune at the post-sleep clock, and finally record the new
request timestamp.  The function is total: it only delays, it never
rejects. -/
def waitForSlot (parseHostname : String → Option String)
    (limits : List (String × RateLimit)) (u : String) (s : RLState) : RLState :=
  let domain := getDomain parseHostname u
  let limit := getLimit limits domain
  let now := s.clock
  let log1 := pruneOld (logOf s domain) (now - limit.perMs)
  if limit.requests ≤ log1.length then
    let now2 := slotNow2 limit now log1
    RLState.mk (setKey s.log domain (pruneOld log1 (now2 - limit.perMs) ++ [now2])) now2
  else
    RLState.mk (setKey s.log domain (log1 ++ [now])) now

/-- One sequential `awaitSlot` call preceded by an arbitrary idle-time
advance of the clock. -/
def rlClockStep (parseHostname : String → Option String)
    (limits : List (String × RateLimit)) (s : RLState) (c : String × Nat) : RLState :=
  waitForSlot parseHostname limits c.1 (RLState.mk s.log (s.clock + c.2))

/-- A finite sequence of sequential `awaitSlot` calls, each with its idle
delay. -/
def runWaitCalls (parseHostname : String → Option String)
    (limits : List (String × RateLimit)) (s : RLState)
    (calls : List (String × Nat)) : RLState :=
  calls.foldl (rlClockStep parseHostname limits) s

/-- Number of recorded timestamps lying in the window `[now - w, now]`. -/
def windowCount (l : List Nat) (now w : Nat) : Nat :=
  (l.filter (fun t => decide (now - w ≤ t ∧ t ≤ now))).length

/-- A hostname parser that always throws (every input falls back to the raw
string), used for concrete scenarios. -/
def puNone : String → Option String := fun _ => none

lemma windowCount_le_length (l : List Nat) (now w : Nat) :
    windowCount l now w ≤ l.length :=
  List.length_filter_le _ l

lemma pruneOld_length_le (l : List Nat) (c : Nat) : (pruneOld l c).length ≤ l.length := by
  induction l with
  | nil => simp [pruneOld]
  | cons t rest ih =>
    simp only [pruneOld]
    by_cases h : t < c
    · simp only [h, if_pos]
      exact Nat.le_succ_of_le ih
    · simp [h]

lemma pruneOld_eq_drop (l : List Nat) (c : Nat) : ∃ n, pruneOld l c = l.drop n := by
  induction l with
  | nil => exact ⟨0, rfl⟩
  | cons t rest ih =>
    by_cases h : t < c
    · obtain ⟨n, hn⟩ := ih
      exact ⟨n + 1, by simp [pruneOld, h, hn]⟩
    · exact ⟨0, by simp [pruneOld, h]⟩

lemma pruneOld_head_ge (l : List Nat) (c : Nat) :
    ∀ t rest, pruneOld l c = t :: rest → c ≤ t := by
  induction l with
  | nil => intro t rest h; simp [pruneOld] at h
  | cons a l2 ih =>
    intro t rest h
    simp only [pruneOld] at h
    by_cases ha : a < c
    · simp only [ha, if_pos] at h
      exact ih t rest h
    · simp only [ha, if_neg, if_false] at h
      injection h with h1 h2
      omega

lemma pruneOld_sorted_ge (l : List Nat) (c : Nat)
    (hs : List.Pairwise (fun a b => a ≤ b) l) :
    ∀ t ∈ pruneOld l c, c ≤ t := by
  induction l with
  | nil => intro t ht; simp [pruneOld] at ht
  | cons a l2 ih =>
    intro t ht
    simp only [pruneOld] at ht
    by_cases ha : a < c
    · simp only [ha, if_pos] at ht
      exact ih (List.Pairwise.sublist (List.sublist_cons_self a l2) hs) t ht
    · simp only [ha, if_neg, if_false] at ht
      rcases List.mem_cons.mp ht with h1 | h1
      · omega
      · have := (List.pairwise_cons.mp hs).1 t h1
        omega

lemma pruneOld_pairwise (l : List Nat) (c : Nat)
    (hs : List.Pairwise (fun a b => a ≤ b) l) :
    List.Pairwise (fun a b => a ≤ b) (pruneOld l c) := by
  obtain ⟨n, hn⟩ := pruneOld_eq_drop l c
  rw [hn]
  exact List.Pairwise.sublist (List.drop_sublist n l) hs

lemma slotNow2_ge (limit : RateLimit) (now : Nat) (l : List Nat) :
    now ≤ slotNow2 limit now l := by
  cases l with
  | nil => simp [slotNow2]
  | cons t rest =>
    simp only [slotNow2]
    by_cases h : (0 : Int) < (t : Int) + limit.perMs - now + 100
    · simp only [h, if_pos]
      omega
    · simp [h]

lemma slotNow2_full (limit : RateLimit) (now t : Nat) (rest : List Nat)
    (hge : now - limit.perMs ≤ t) :
    slotNow2 limit now (t :: rest) = t + limit.perMs + 100 := by
  simp only [slotNow2]
  have hw : (0 : Int) < (t : Int) + limit.perMs - now + 100 := by omega
  rw [if_pos hw]
  omega

lemma logOf_setKey_self (m : List (String × List Nat)) (d : String) (l : List Nat) (c : Nat) :
    logOf (RLState.mk (setKey m d l) c) d = l := by
  simp [logOf, lookupKey_setKey_self]

lemma waitForSlot_eq_notfull (pu : String → Option String)
    (limits : List (String × RateLimit)) (u : String) (s : RLState)
    (h : ¬ (getLimit limits (getDomain pu u)).requests
        ≤ (pruneOld (logOf s (getDomain pu u))
            (s.clock - (getLimit limits (getDomain pu u)).perMs)).length) :
    waitForSlot pu limits u s
      = RLState.mk
          (setKey s.log (getDomain pu u)
            (pruneOld (logOf s (getDomain pu u))
              (s.clock - (getLimit limits (getDomain pu u)).perMs) ++ [s.clock]))
          s.clock := by
  simp only [waitForSlot]
  rw [if_neg h]

lemma waitForSlot_eq_full (pu : String → Option String)
    (limits : List (String × RateLimit)) (u : String) (s : RLState)
    (h : (getLimit limits (getDomain pu u)).requests
        ≤ (pruneOld (logOf s (getDomain pu u))
            (s.clock - (getLimit limits (getDomain pu u)).perMs)).length) :
    waitForSlot pu limits u s
      = RLState.mk
          (setKey s.log (getDomain pu u)
            (pruneOld
              (pruneOld (logOf s (getDomain pu u))
                (s.clock - (getLimit limits (getDomain pu u)).perMs))
              (slotNow2 (getLimit limits (getDomain pu u)) s.clock
                  (pruneOld (logOf s (getDomain pu u))
                    (s.clock - (getLimit limits (getDomain pu u)).perMs))
                - (getLimit limits (getDomain pu u)).perMs)
             ++ [slotNow2 (getLimit limits (getDomain pu u)) s.clock
                  (pruneOld (logOf s (getDomain pu u))
                    (s.clock - (getLimit limits (getDomain pu u)).perMs))]))
          (slotNow2 (getLimit limits (getDomain pu u)) s.clock
            (pruneOld (logOf s (getDomain pu u))
              (s.clock - (getLimit limits (getDomain pu u)).perMs))) := by
  simp only [waitForSlot]
  rw [if_pos h]

lemma waitForSlot_log_other (pu : String → Option String)
    (limits : List (String × RateLimit)) (u : String) (s : RLState)
    (d2 : String) (hd : d2 ≠ getDomain pu u) :
    lookupKey (waitForSlot pu limits u s).log d2 = lookupKey s.log d2 := by
  by_cases h : (getLimit limits (getDomain pu u)).requests
      ≤ (pruneOld (logOf s (getDomain pu u))
          (s.clock - (getLimit limits (getDomain pu u)).perMs)).length
  · rw [waitForSlot_eq_full pu limits u s h]
    exact lookupKey_setKey_other _ _ _ _ hd
  · rw [waitForSlot_eq_notfull pu limits u s h]
    exact lookupKey_setKey_other _ _ _ _ hd

lemma full_branch_len (L : RateLimit) (now : Nat) (log1 : List Nat)
    (hhead : ∀ t rest, log1 = t :: rest → now - L.perMs ≤ t)
    (hne : log1 ≠ []) :
    (pruneOld log1 (slotNow2 L now log1 - L.perMs)).length + 1 ≤ log1.length := by
  match log1, hne with
  | t :: rest, _ =>
    have hge := hhead t rest rfl
    rw [slotNow2_full L now t rest hge]
    have hc : t + L.perMs + 100 - L.perMs = t + 100 := by omega
    rw [hc]
    have hstep : pruneOld (t :: rest) (t + 100) = pruneOld rest (t + 100) := by
      simp [pruneOld]
    rw [hstep]
    have := pruneOld_length_le rest (t + 100)
    simp only [List.length_cons]
    omega

lemma waitForSlot_target_length (pu : String → Option String)
    (limits : List (String × RateLimit)) (u : String) (s : RLState)
    (hR : 1 ≤ (getLimit limits (getDomain pu u)).requests)
    (hlen : (logOf s (getDomain pu u)).length ≤ (getLimit limits (getDomain pu u)).requests) :
    (logOf (waitForSlot pu limits u s) (getDomain pu u)).length
      ≤ (getLimit limits (getDomain pu u)).requests := by
  by_cases h : (getLimit limits (getDomain pu u)).requests
      ≤ (pruneOld (logOf s (getDomain pu u))
          (s.clock - (getLimit limits (getDomain pu u)).perMs)).length
  · rw [waitForSlot_eq_full pu limits u s h, logOf_setKey_self, List.length_append]
    simp only [List.length_cons, List.length_nil]
    have hprune : (pruneOld (logOf s (getDomain pu u))
        (s.clock - (getLimit limits (getDomain pu u)).perMs)).length
        ≤ (getLimit limits (getDomain pu u)).requests :=
      le_trans (pruneOld_length_le _ _) hlen
    have hne : pruneOld (logOf s (getDomain pu u))
        (s.clock - (getLimit limits (getDomain pu u)).perMs) ≠ [] := by
      intro he
      rw [he] at h
      simp only [List.length_nil] at h
      omega
    have hb := full_branch_len (getLimit limits (getDomain pu u)) s.clock
      (pruneOld (logOf s (getDomain pu u))
        (s.clock - (getLimit limits (getDomain pu u)).perMs))
      (fun t rest he => pruneOld_head_ge _ _ t rest he) hne
    omega
  · rw [waitForSlot_eq_notfull pu limits u s h, logOf_setKey_self, List.length_append]
    simp only [List.length_cons, List.length_nil]
    omega

lemma waitForSlot_clock_full (pu : String → Option String)
    (limits : List (String × RateLimit)) (u : String) (s : RLState)
    (h : (getLimit limits (getDomain pu u)).requests
        ≤ (pruneOld (logOf s (getDomain pu u))
            (s.clock - (getLimit limits (getDomain pu u)).perMs)).length) :
    (waitForSlot pu limits u s).clock
      = slotNow2 (getLimit limits (getDomain pu u)) s.clock
          (pruneOld (logOf s (getDomain pu u))
            (s.clock - (getLimit limits (getDomain pu u)).perMs)) := by
  rw [waitForSlot_eq_full pu limits u s h]

lemma waitForSlot_clock_notfull (pu : String → Option String)
    (limits : List (String × RateLimit)) (u : String) (s : RLState)
    (h : ¬ (getLimit limits (getDomain pu u)).requests
        ≤ (pruneOld (logOf s (getDomain pu u))
            (s.clock - (getLimit limits (getDomain pu u)).perMs)).length) :
    (waitForSlot pu limits u s).clock = s.clock := by
  rw [waitForSlot_eq_notfull pu limits u s h]

lemma waitForSlot_logOf_full (pu : String → Option String)
    (limits : List (String × RateLimit)) (u : String) (s : RLState)
    (h : (getLimit limits (getDomain pu u)).requests
        ≤ (pruneOld (logOf s (getDomain pu u))
            (s.clock - (getLimit limits (getDomain pu u)).perMs)).length) :
    logOf (waitForSlot pu limits u s) (getDomain pu u)
      = pruneOld
          (pruneOld (logOf s (getDomain pu u))
            (s.clock - (getLimit limits (getDomain pu u)).perMs))
          (slotNow2 (getLimit limits (getDomain pu u)) s.clock
              (pruneOld (logOf s (getDomain pu u))
                (s.clock - (getLimit limits (getDomain pu u)).perMs))
            - (getLimit limits (getDomain pu u)).perMs)
        ++ [slotNow2 (getLimit limits (getDomain pu u)) s.clock
              (pruneOld (logOf s (getDomain pu u))
                (s.clock - (getLimit limits (getDomain pu u)).perMs))] := by
  rw [waitForSlot_eq_full pu limits u s h, logOf_setKey_self]

lemma waitForSlot_logOf_notfull (pu : String → Option String)
    (limits : List (String × RateLimit)) (u : String) (s : RLState)
    (h : ¬ (getLimit limits (getDomain pu u)).requests
        ≤ (pruneOld (logOf s (getDomain pu u))
            (s.clock - (getLimit limits (getDomain pu u)).perMs)).length) :
    logOf (waitForSlot pu limits u s) (getDomain pu u)
      = pruneOld (logOf s (getDomain pu u))
          (s.clock - (getLimit limits (getDomain pu u)).perMs) ++ [s.clock] := by
  rw [waitForSlot_eq_notfull pu limits u s h, logOf_setKey_self]

lemma waitForSlot_pruned (pu : String → Option String)
    (limits : List (String × RateLimit)) (u : String) (s : RLState)
    (hs : List.Pairwise (fun a b => a ≤ b) (logOf s (getDomain pu u))) :
    ∀ t ∈ logOf (waitForSlot pu limits u s) (getDomain pu u),
      (waitForSlot pu limits u s).clock - (getLimit limits (getDomain pu u)).perMs ≤ t := by
  by_cases h : (getLimit limits (getDomain pu u)).requests
      ≤ (pruneOld (logOf s (getDomain pu u))
          (s.clock - (getLimit limits (getDomain pu u)).perMs)).length
  · intro t ht
    rw [waitForSlot_logOf_full pu limits u s h] at ht
    rw [waitForSlot_clock_full pu limits u s h]
    rcases List.mem_append.mp ht with h1 | h1
    · exact pruneOld_sorted_ge _ _ (pruneOld_pairwise _ _ hs) t h1
    · simp only [List.mem_singleton] at h1
      omega
  · intro t ht
    rw [waitForSlot_logOf_notfull pu limits u s h] at ht
    rw [waitForSlot_clock_notfull pu limits u s h]
    rcases List.mem_append.mp ht with h1 | h1
    · have := pruneOld_sorted_ge _ _ hs t h1
      omega
    · simp only [List.mem_singleton] at h1
      omega

lemma runWaitCalls_length (pu : String → Option String)
    (limits : List (String × RateLimit)) (d : String) (calls : List (String × Nat))
    (hR : 1 ≤ (getLimit limits d).requests) :
    ∀ s, (logOf s d).length ≤ (getLimit limits d).requests →
      (logOf (runWaitCalls pu limits s calls) d).length ≤ (getLimit limits d).requests := by
  induction calls with
  | nil => intro s hs; exact hs
  | cons c rest ih =>
    intro s hs
    show (logOf (runWaitCalls pu limits (rlClockStep pu limits s c) rest) d).length
      ≤ (getLimit limits d).requests
    apply ih
    by_cases hd : getDomain pu c.1 = d
    · rw [← hd] at hR hs ⊢
      exact waitForSlot_target_length pu limits c.1
        (RLState.mk s.log (s.clock + c.2)) hR hs
    · have hne : d ≠ getDomain pu c.1 := fun he => hd he.symm
      have hframe : logOf (rlClockStep pu limits s c) d = logOf s d := by
        simp only [rlClockStep, logOf]
        rw [waitForSlot_log_other pu limits c.1 (RLState.mk s.log (s.clock + c.2)) d hne]
      rw [hframe]
      exact hs

lemma getLimit_unconfigured (limits : List (String × RateLimit)) (dom : String)
    (h : lookupKey limits dom = none) :
    getLimit limits dom =
      (if 2 < (dom.splitOn ".").length then
        ((lookupKey limits (String.intercalate "."
          ((dom.splitOn ".").drop ((dom.splitOn ".").length - 2)))).getD (defaultLimit limits))
      else defaultLimit limits) := by
  simp only [getLimit, h]
  by_cases h2 : 2 < (dom.splitOn ".").length
  · simp only [h2, if_pos, if_true]
    cases hp : lookupKey limits (String.intercalate "."
        ((dom.splitOn ".").drop ((dom.splitOn ".").length - 2))) with
    | none => simp [hp]
    | some l => simp [hp]
  · simp [h2]

/-- A configuration with a degenerate zero-request limit for one resource. -/
def zeroLimitCfg : List (String × RateLimit) :=
  [("zero.example", RateLimit.mk 0 1000)]

/-- C2 counterexample: for the configured limit `(R, W) = (0, 1000)` on
`zero.example`, a single `waitForSlot` call still records one timestamp
(the push is unconditional; with an empty log `log[0]` is `undefined`,
`waitMs` is `NaN` and no wait happens), so immediately afterwards the window
`[now - W, now]` holds 1 > 0 = R timestamps — the admission invariant as
universally stated fails for R = 0. -/
theorem rateLimiter_zero_limit_counterexample :
    (getLimit zeroLimitCfg "zero.example").requests = 0
    ∧ windowCount
        (logOf (waitForSlot puNone zeroLimitCfg "zero.example" (RLState.mk [] 0)) "zero.example")
        (waitForSlot puNone zeroLimitCfg "zero.example" (RLState.mk [] 0)).clock
        (getLimit zeroLimitCfg "zero.example").perMs = 1 :=
  ⟨rfl, rfl⟩

/-- C2 (amended): for every resource key `d` whose resolved limit has
`R ≥ 1` requests per window `W`, after any finite sequence of sequential
`waitForSlot` calls (each preceded by an arbitrary idle clock advance,
starting from the empty log) the recorded log of `d` holds at most `R`
timestamps, hence at every observation instant the window count never
exceeds `R`; entries older than the window are pruned before each admission
check (after a call on a sorted log every surviving entry lies within
`[clock - W, clock]`); and a full window causes a delay — the post-call
clock is `oldest + W + 100`, i.e. `oldest + W - now` plus the fixed
100 ms buffer after the call instant `now` — never a rejection
(`waitForSlot` is total). -/
theorem rateLimiter_matches_amended_spec (pu : String → Option String)
    (limits : List (String × RateLimit)) (d : String) (calls : List (String × Nat)) :
    1 ≤ (getLimit limits d).requests →
    ((logOf (runWaitCalls pu limits (RLState.mk [] 0) calls) d).length
        ≤ (getLimit limits d).requests
      ∧ (∀ now w, windowCount (logOf (runWaitCalls pu limits (RLState.mk [] 0) calls) d) now w
          ≤ (getLimit limits d).requests)
      ∧ (∀ s u, getDomain pu u = d →
          List.Pairwise (fun a b => a ≤ b) (logOf s d) →
          ∀ t ∈ logOf (waitForSlot pu limits u s) d,
            (waitForSlot pu limits u s).clock - (getLimit limits d).perMs ≤ t)
      ∧ (∀ s u t rest, getDomain pu u = d →
          pruneOld (logOf s d) (s.clock - (getLimit limits d).perMs) = t :: rest →
          (getLimit limits d).requests ≤ (t :: rest).length →
          (waitForSlot pu limits u s).clock = t + (getLimit limits d).perMs + 100)) := by
  intro hR
  have hempty : (logOf (RLState.mk [] 0) d).length ≤ (getLimit limits d).requests := by
    simp [logOf, lookupKey]
  refine ⟨?_, ?_, ?_, ?_⟩
  · exact runWaitCalls_length pu limits d calls hR (RLState.mk [] 0) hempty
  · intro now w
    exact le_trans (windowCount_le_length _ _ _)
      (runWaitCalls_length pu limits d calls hR (RLState.mk [] 0) hempty)
  · intro s u hd hsort
    subst hd
    exact waitForSlot_pruned pu limits u s hsort
  · intro s u t rest hd hprune hlen
    subst hd
    have hfull : (getLimit limits (getDomain pu u)).requests
        ≤ (pruneOld (logOf s (getDomain pu u))
            (s.clock - (getLimit limits (getDomain pu u)).perMs)).length := by
      rw [hprune]
      exact hlen
    rw [waitForSlot_clock_full pu limits u s hfull, hprune]
    exact slotNow2_full _ _ _ _ (pruneOld_head_ge _ _ t rest hprune)

/-- A small concrete limit configuration: 2 requests per 1000 ms on
`x.com`. -/
def sampleCfg : List (String × RateLimit) := [("x.com", RateLimit.mk 2 1000)]

/-- Witness for the amended C2: three back-to-back calls on `x.com` under the
(2, 1000 ms) limit leave at most 2 recorded timestamps, and the window count
at the final clock never exceeds 2. -/
theorem rateLimiter_matches_amended_spec_witness :
    (logOf (runWaitCalls puNone sampleCfg (RLState.mk [] 0)
        [("x.com", 0), ("x.com", 0), ("x.com", 0)]) "x.com").length
      ≤ (getLimit sampleCfg "x.com").requests
    ∧ windowCount
        (logOf (runWaitCalls puNone sampleCfg (RLState.mk [] 0)
          [("x.com", 0), ("x.com", 0), ("x.com", 0)]) "x.com")
        (runWaitCalls puNone sampleCfg (RLState.mk [] 0)
          [("x.com", 0), ("x.com", 0), ("x.com", 0)]).clock 1000
      ≤ (getLimit sampleCfg "x.com").requests := by
  have h := rateLimiter_matches_amended_spec puNone sampleCfg "x.com"
    [("x.com", 0), ("x.com", 0), ("x.com", 0)] (by decide)
  exact ⟨h.1, h.2.1 (runWaitCalls puNone sampleCfg (RLState.mk [] 0)
    [("x.com", 0), ("x.com", 0), ("x.com", 0)]).clock 1000⟩

/-- C10: a `waitForSlot(u)` call mutates only the request log of the single
resource key resolved from `u` — every other key's log is read back
unchanged — and the resolved key's new log is the old log with some expired
prefix dropped plus exactly one appended timestamp (the post-call clock,
never earlier than the pre-call clock).  The call never throws (the
embedding is total); an input containing `://` that the URL parser rejects
falls back to the raw string as key, an input without `://` is used as the
key directly, and an unconfigured key falls back to the two-label parent
limit when the key has more than two labels, else to the default limit. -/
theorem waitForSlot_frame_matches_spec (pu : String → Option String)
    (limits : List (String × RateLimit)) (u : String) (s : RLState) :
    (∀ d2, d2 ≠ getDomain pu u →
        lookupKey (waitForSlot pu limits u s).log d2 = lookupKey s.log d2)
    ∧ (∃ n ts, logOf (waitForSlot pu limits u s) (getDomain pu u)
          = (logOf s (getDomain pu u)).drop n ++ [ts]
        ∧ s.clock ≤ ts ∧ (waitForSlot pu limits u s).clock = ts)
    ∧ (jsIncludes u "://" = true → pu u = none → getDomain pu u = u)
    ∧ (jsIncludes u "://" = false → getDomain pu u = u)
    ∧ (∀ dom, lookupKey limits dom = none →
        getLimit limits dom
          = (if 2 < (dom.splitOn ".").length then
              ((lookupKey limits (String.intercalate "."
                ((dom.splitOn ".").drop ((dom.splitOn ".").length - 2)))).getD
                  (defaultLimit limits))
            else defaultLimit limits)) := by
  refine ⟨?_, ?_, ?_, ?_, ?_⟩
  · intro d2 hd
    exact waitForSlot_log_other pu limits u s d2 hd
  · by_cases h : (getLimit limits (getDomain pu u)).requests
        ≤ (pruneOld (logOf s (getDomain pu u))
            (s.clock - (getLimit limits (getDomain pu u)).perMs)).length
    · obtain ⟨n1, hn1⟩ := pruneOld_eq_drop (logOf s (getDomain pu u))
        (s.clock - (getLimit limits (getDomain pu u)).perMs)
      obtain ⟨n2, hn2⟩ := pruneOld_eq_drop
        (pruneOld (logOf s (getDomain pu u))
          (s.clock - (getLimit limits (getDomain pu u)).perMs))
        (slotNow2 (getLimit limits (getDomain pu u)) s.clock
            (pruneOld (logOf s (getDomain pu u))
              (s.clock - (getLimit limits (getDomain pu u)).perMs))
          - (getLimit limits (getDomain pu u)).perMs)
      refine ⟨n1 + n2, slotNow2 (getLimit limits (getDomain pu u)) s.clock
        (pruneOld (logOf s (getDomain pu u))
          (s.clock - (getLimit limits (getDomain pu u)).perMs)), ?_, ?_, ?_⟩
      · rw [waitForSlot_logOf_full pu limits u s h, hn2, hn1, List.drop_drop]
      · exact slotNow2_ge _ _ _
      · exact waitForSlot_clock_full pu limits u s h
    · obtain ⟨n1, hn1⟩ := pruneOld_eq_drop (logOf s (getDomain pu u))
        (s.clock - (getLimit limits (getDomain pu u)).perMs)
      refine ⟨n1, s.clock, ?_, le_refl _, waitForSlot_clock_notfull pu limits u s h⟩
      rw [waitForSlot_logOf_notfull pu limits u s h, hn1]
  · intro hinc hpu
    simp [getDomain, hinc, hpu]
  · intro hinc
    simp [getDomain, hinc]
  · intro dom hnone
    exact getLimit_unconfigured limits dom hnone

/-- Witness for C10: with the throwing parser, a call on the unparseable
input `abc://zzz` resolves to the raw string as key and leaves the log of the
unrelated key `other` untouched. -/
theorem waitForSlot_frame_matches_spec_witness :
    lookupKey (waitForSlot puNone sampleCfg "abc://zzz"
        (RLState.mk [("other", [5])] 10)).log "other"
      = lookupKey (RLState.mk [("other", [5])] 10).log "other"
    ∧ getDomain puNone "abc://zzz" = "abc://zzz" :=
  ⟨(waitForSlot_frame_matches_spec puNone sampleCfg "abc://zzz"
      (RLState.mk [("other", [5])] 10)).1 "other" (by decide),
   (waitForSlot_frame_matches_spec puNone sampleCfg "abc://zzz"
      (RLState.mk [("other", [5])] 10)).2.2.1 (by decide) rfl⟩

/-- One entry pushed into the title map by `crossReference`: the producing
source, the item's display title and its url. -/
structure TitleEntry where
  source : String
  title : String
  url : String
deriving Repr, DecidableEq

/-- A cross-reference finding: an exact URL shared by several sources, or a
normalized-title-key overlap. -/
inductive CrossRef
  | exactUrl (url : String) (sources : List String)
  | similarTopic (title : String) (sources : List String) (items : List TitleEntry)
deriving Repr, DecidableEq

/-- `Set.prototype.add` on an insertion-ordered set represented as a
duplicate-free list. -/
def setAdd (ss : List String) (s : String) : List String :=
  if ss.contains s then ss else ss ++ [s]

/-- `new Set(list)` spread back into an array: insertion-order
deduplication. -/
def dedupKeep (l : List String) : List String :=
  l.foldl setAdd []

/-- The `if (!map.has(k)) map.set(k, init); <update map.get(k)>` idiom on a
JavaScript `Map`: push `v` into key `k`'s aggregate via `upd`, creating the
key at the end of the insertion order when absent. -/
def bumpKey {α : Type} (upd : List α → α → List α)
    (m : List (String × List α)) (k : String) (v : α) : List (String × List α) :=
  match m with
  | [] => [(k, upd [] v)]
  | (k1, vs) :: rest =>
    if k1 == k then (k1, upd vs v) :: rest
    else (k1, vs) :: bumpKey upd rest k v

/-- Character-wise lower-casing (`String.prototype.toLowerCase`, ASCII
range). -/
def lowerStr (s : String) : String :=
  String.mk (s.toList.map Char.toLower)

/-- `split(/\s+/)` tokenization: maximal runs of non-whitespace characters
(empty tokens cannot arise; the JavaScript original can produce one leading
empty token, which the length filters downstream discard anyway). -/
def wsTokens : List Char → List Char → List String
  | [], cur => if cur.isEmpty then [] else [String.mk cur.reverse]
  | c :: rest, cur =>
    if c.isWhitespace then
      (if cur.isEmpty then wsTokens rest [] else String.mk cur.reverse :: wsTokens rest [])
    else wsTokens rest (c :: cur)

/-- The item's display title: `item.title || item.text` (with `''` when both
are missing, in which case the item never reaches the title map). -/
def titleRawOf (it : Item) : String :=
  jsOrStr it.title (jsOrStr it.text "")

/-- The normalized title key of `crossReference`: lower-case the title/text,
split on whitespace, keep tokens longer than 4 characters, join the first
five with single spaces. -/
def titleKeyOf (it : Item) : String :=
  String.intercalate " "
    (((wsTokens (lowerStr (titleRawOf it)).toList []).filter
      (fun w => 4 < w.length)).take 5)

/-- `item.url || ''`. -/
def itemUrlOf (it : Item) : String :=
  jsOrStr it.url ""

/-- The body of `crossReference`'s item loop (`deep-research.mjs` lines
211-226): record the item's url under the producing source in the url map
(skipping falsy urls), and push a `(source, title, url)` entry under the
normalized title key when that key is longer than 10 characters. -/
def crossStep (src : String) (item : Item)
    (ms : List (String × List String) × List (String × List TitleEntry)) :
    List (String × List String) × List (String × List TitleEntry) :=
  let url := itemUrlOf item
  let m1 := if url == "" then ms.1 else bumpKey setAdd ms.1 url src
  let key := titleKeyOf item
  let m2 := if 10 < key.length
    then bumpKey (fun es e => es ++ [e]) ms.2 key
      (TitleEntry.mk src (titleRawOf item) url)
    else ms.2
  (m1, m2)

/-- Both maps built by one pass of `crossReference` over all results. -/
def crossMaps (rs : List SourceResult) :
    List (String × List String) × List (String × List TitleEntry) :=
  rs.foldl
    (fun ms r => r.results.foldl (fun ms2 item => crossStep r.source item ms2) ms)
    ([], [])

/-- Shallow embedding of `crossReference` (`deep-research.mjs` lines
207-248): build the url map and the title map over the same input in one
pass, then emit one `exact-url` entry per url backed by at least two distinct
sources followed by one `similar-topic` entry per title key backed by at
least two distinct sources, in map insertion order. -/
def crossReference (allResults : List SourceResult) : List CrossRef :=
  let maps := crossMaps allResults
  let exacts := maps.1.filterMap
    (fun p => if 2 ≤ p.2.length then some (CrossRef.exactUrl p.1 p.2) else none)
  let sims := maps.2.filterMap
    (fun p =>
      let uniq := dedupKeep (p.2.map (fun e => e.source))
      if 2 ≤ uniq.length then
        some (CrossRef.similarTopic ((p.2.headD (TitleEntry.mk "" "" "")).title) uniq p.2)
      else none)
  exacts ++ sims

/-- The stream of `(source, item)` pairs in the order `crossReference`'s two
nested loops visit them. -/
def sourceEvents (rs : List SourceResult) : List (String × Item) :=
  rs.flatMap (fun r => r.results.map (fun it => (r.source, it)))

/-- The url-map updates of the stream: `(url, source)` for every item with a
truthy url. -/
def urlEvents (evts : List (String × Item)) : List (String × String) :=
  evts.filterMap (fun p =>
    if itemUrlOf p.2 == "" then none else some (itemUrlOf p.2, p.1))

/-- The title-map updates of the stream: `(key, entry)` for every item whose
normalized key is longer than 10 characters. -/
def titleEvents (evts : List (String × Item)) : List (String × TitleEntry) :=
  evts.filterMap (fun p =>
    if 10 < (titleKeyOf p.2).length
    then some (titleKeyOf p.2, TitleEntry.mk p.1 (titleRawOf p.2) (itemUrlOf p.2))
    else none)

/-- All sources that produced an item with exactly this (non-empty) url, in
first-occurrence order, with per-source repetitions kept. -/
def urlOccurrences (rs : List SourceResult) (url : String) : List String :=
  ((urlEvents (sourceEvents rs)).filter (fun q => q.1 == url)).map Prod.snd

/-- All `(source, title, url)` entries recorded under this title key, in
visit order. -/
def titleEntriesOf (rs : List SourceResult) (key : String) : List TitleEntry :=
  ((titleEvents (sourceEvents rs)).filter (fun q => q.1 == key)).map Prod.snd

/-- The urls of the exact-url entries of a cross-reference list. -/
def exactUrlKeys (l : List CrossRef) : List String :=
  l.filterMap (fun c => match c with
    | CrossRef.exactUrl u _ => some u
    | CrossRef.similarTopic _ _ _ => none)

/-- The spec's concrete scenario: the same url produced by both `web` and
`hn` (titles too short to generate title keys). -/
def crossRefExample : List SourceResult :=
  [ SourceResult.mk "web"
      [Item.mk (some "https://x.example/a") (some "Story A") none] none,
    SourceResult.mk "hn"
      [Item.mk (some "https://x.example/a") (some "Post B") none] none ]

/-- The url-map component of one loop-body step, as a function of the
`(source, item)` event. -/
def urlStepP (m : List (String × List String)) (p : String × Item) :
    List (String × List String) :=
  if itemUrlOf p.2 == "" then m else bumpKey setAdd m (itemUrlOf p.2) p.1

/-- The title-map component of one loop-body step. -/
def titleStepP (m : List (String × List TitleEntry)) (p : String × Item) :
    List (String × List TitleEntry) :=
  if 10 < (titleKeyOf p.2).length
  then bumpKey (fun es e => es ++ [e]) m (titleKeyOf p.2)
    (TitleEntry.mk p.1 (titleRawOf p.2) (itemUrlOf p.2))
  else m

lemma crossMaps_eq_eventFold (rs : List SourceResult) :
    crossMaps rs = (sourceEvents rs).foldl (fun ms p => crossStep p.1 p.2 ms) ([], []) := by
  suffices h : ∀ ms0 : List (String × List String) × List (String × List TitleEntry),
      rs.foldl (fun ms r => r.results.foldl (fun ms2 item => crossStep r.source item ms2) ms) ms0
        = (sourceEvents rs).foldl (fun ms p => crossStep p.1 p.2 ms) ms0 by
    exact h ([], [])
  induction rs with
  | nil => intro ms0; rfl
  | cons r rest ih =>
    intro ms0
    have hse : sourceEvents (r :: rest)
        = r.results.map (fun it => (r.source, it)) ++ sourceEvents rest := by
      simp [sourceEvents]
    rw [List.foldl_cons, hse, List.foldl_append, List.foldl_map]
    exact ih _

lemma eventFold_components (evts : List (String × Item)) :
    ∀ (a : List (String × List String)) (b : List (String × List TitleEntry)),
      evts.foldl (fun ms p => crossStep p.1 p.2 ms) (a, b)
        = (evts.foldl urlStepP a, evts.foldl titleStepP b) := by
  induction evts with
  | nil => intro a b; rfl
  | cons p rest ih =>
    intro a b
    rw [List.foldl_cons, List.foldl_cons, List.foldl_cons]
    have hstep : crossStep p.1 p.2 (a, b) = (urlStepP a p, titleStepP b p) := rfl
    rw [hstep]
    exact ih _ _

/-- The fold of insertion-ordered multimap pushes over an event stream,
starting from the empty map. -/
def bumpFold {α : Type} (upd : List α → α → List α)
    (evts : List (String × α)) : List (String × List α) :=
  evts.foldl (fun m q => bumpKey upd m q.1 q.2) []

lemma urlFold_eq_events (evts : List (String × Item)) :
    ∀ m0, evts.foldl urlStepP m0
      = (urlEvents evts).foldl (fun m q => bumpKey setAdd m q.1 q.2) m0 := by
  induction evts with
  | nil => intro m0; rfl
  | cons p rest ih =>
    intro m0
    by_cases h : itemUrlOf p.2 == ""
    · have he : itemUrlOf p.2 = "" := by simpa using h
      have h1 : urlStepP m0 p = m0 := by simp [urlStepP, h]
      have h2 : urlEvents (p :: rest) = urlEvents rest := by
        simp [urlEvents, List.filterMap_cons, he]
      rw [List.foldl_cons, h1, h2]
      exact ih m0
    · have he : ¬ itemUrlOf p.2 = "" := by simpa using h
      have h1 : urlStepP m0 p = bumpKey setAdd m0 (itemUrlOf p.2) p.1 := by
        simp [urlStepP, h]
      have h2 : urlEvents (p :: rest) = (itemUrlOf p.2, p.1) :: urlEvents rest := by
        simp [urlEvents, List.filterMap_cons, he]
      rw [List.foldl_cons, h1, h2, List.foldl_cons]
      exact ih _

lemma titleFold_eq_events (evts : List (String × Item)) :
    ∀ m0, evts.foldl titleStepP m0
      = (titleEvents evts).foldl (fun m q => bumpKey (fun es e => es ++ [e]) m q.1 q.2) m0 := by
  induction evts with
  | nil => intro m0; rfl
  | cons p rest ih =>
    intro m0
    by_cases h : 10 < (titleKeyOf p.2).length
    · have h1 : titleStepP m0 p
          = bumpKey (fun es e => es ++ [e]) m0 (titleKeyOf p.2)
              (TitleEntry.mk p.1 (titleRawOf p.2) (itemUrlOf p.2)) := by
        simp [titleStepP, h]
      have h2 : titleEvents (p :: rest)
          = (titleKeyOf p.2, TitleEntry.mk p.1 (titleRawOf p.2) (itemUrlOf p.2))
              :: titleEvents rest := by
        simp [titleEvents, List.filterMap_cons, h]
      rw [List.foldl_cons, h1, h2, List.foldl_cons]
      exact ih _
    · have h1 : titleStepP m0 p = m0 := by simp [titleStepP, h]
      have h2 : titleEvents (p :: rest) = titleEvents rest := by
        simp [titleEvents, List.filterMap_cons, h]
      rw [List.foldl_cons, h1, h2]
      exact ih m0

lemma crossMaps_fst (rs : List SourceResult) :
    (crossMaps rs).1 = bumpFold setAdd (urlEvents (sourceEvents rs)) := by
  rw [crossMaps_eq_eventFold, eventFold_components (sourceEvents rs) [] []]
  exact urlFold_eq_events (sourceEvents rs) []

lemma crossMaps_snd (rs : List SourceResult) :
    (crossMaps rs).2 = bumpFold (fun es e => es ++ [e]) (titleEvents (sourceEvents rs)) := by
  rw [crossMaps_eq_eventFold, eventFold_components (sourceEvents rs) [] []]
  exact titleFold_eq_events (sourceEvents rs) []

lemma lookupKey_bumpKey_self {α : Type} (upd : List α → α → List α)
    (m : List (String × List α)) (k : String) (v : α) :
    lookupKey (bumpKey upd m k v) k = some (upd ((lookupKey m k).getD []) v) := by
  induction m with
  | nil => simp [bumpKey, lookupKey, List.find?]
  | cons p rest ih =>
    obtain ⟨k1, vs⟩ := p
    simp only [bumpKey]
    by_cases h : k1 == k
    · simp only [h, if_pos, if_true]
      simp [lookupKey, List.find?, h]
    · simp only [h, if_neg, if_false]
      simp only [lookupKey, List.find?, h] at ih ⊢
      exact ih

lemma lookupKey_bumpKey_other {α : Type} (upd : List α → α → List α)
    (m : List (String × List α)) (k : String) (v : α) (k2 : String) (h : k2 ≠ k) :
    lookupKey (bumpKey upd m k v) k2 = lookupKey m k2 := by
  induction m with
  | nil =>
    have hk : (k == k2) = false := by
      simp only [beq_eq_false_iff_ne, ne_eq]
      exact fun he => h he.symm
    simp [bumpKey, lookupKey, List.find?, hk]
  | cons p rest ih =>
    obtain ⟨k1, vs⟩ := p
    simp only [bumpKey]
    by_cases hk1 : (k1 == k) = true
    · rw [if_pos hk1]
      have hk1e : k1 = k := by simpa using hk1
      have hk12 : (k1 == k2) = false := by
        simp only [beq_eq_false_iff_ne, ne_eq]
        intro he
        exact h (he ▸ hk1e)
      simp [lookupKey, List.find?, hk12]
    · rw [if_neg hk1]
      simp only [lookupKey, List.find?] at ih ⊢
      by_cases hk2 : (k1 == k2) = true
      · simp [hk2]
      · have hk2f : (k1 == k2) = false := by simpa using hk2
        simp only [hk2f]
        exact ih

lemma mem_keys_bumpKey {α : Type} (upd : List α → α → List α)
    (m : List (String × List α)) (k : String) (v : α) (x : String) :
    x ∈ (bumpKey upd m k v).map Prod.fst ↔ x ∈ m.map Prod.fst ∨ x = k := by
  induction m with
  | nil => simp [bumpKey]
  | cons p rest ih =>
    obtain ⟨k1, vs⟩ := p
    simp only [bumpKey]
    by_cases hk : (k1 == k) = true
    · rw [if_pos hk]
      have hk1e : k1 = k := by simpa using hk
      subst hk1e
      simp only [List.map_cons, List.mem_cons]
      tauto
    · rw [if_neg hk]
      simp only [List.map_cons, List.mem_cons, ih]
      tauto

lemma bumpKey_keysNodup {α : Type} (upd : List α → α → List α)
    (m : List (String × List α)) (k : String) (v : α)
    (h : (m.map Prod.fst).Nodup) : ((bumpKey upd m k v).map Prod.fst).Nodup := by
  induction m with
  | nil => simp [bumpKey]
  | cons p rest ih =>
    obtain ⟨k1, vs⟩ := p
    simp only [List.map_cons, List.nodup_cons] at h
    simp only [bumpKey]
    by_cases hk : (k1 == k) = true
    · rw [if_pos hk]
      simp only [List.map_cons, List.nodup_cons]
      exact h
    · rw [if_neg hk]
      simp only [List.map_cons, List.nodup_cons]
      constructor
      · intro hmem
        rcases (mem_keys_bumpKey upd rest k v k1).mp hmem with hx | hx
        · exact h.1 hx
        · rw [hx] at hk
          simp at hk
      · exact ih h.2

lemma mem_iff_lookupKey {β : Type} (m : List (String × β))
    (h : (m.map Prod.fst).Nodup) (k : String) (vs : β) :
    (k, vs) ∈ m ↔ lookupKey m k = some vs := by
  induction m with
  | nil => simp [lookupKey]
  | cons p rest ih =>
    obtain ⟨k1, v1⟩ := p
    simp only [List.map_cons, List.nodup_cons] at h
    constructor
    · intro hm
      rcases List.mem_cons.mp hm with he | hm2
      · injection he with he1 he2
        simp [lookupKey, List.find?, he1.symm, he2]
      · have hk : (k1 == k) = false := by
          simp only [beq_eq_false_iff_ne, ne_eq]
          intro heq
          apply h.1
          rw [heq]
          exact List.mem_map.mpr ⟨(k, vs), hm2, rfl⟩
        simp only [lookupKey, List.find?, hk]
        exact (ih h.2).mp hm2
    · intro hl
      by_cases hk : (k1 == k) = true
      · simp only [lookupKey, List.find?, hk] at hl
        injection hl with hl1
        have hk2 : k1 = k := by simpa using hk
        rw [← hl1, ← hk2]
        exact List.mem_cons_self _ _
      · have hkf : (k1 == k) = false := by simpa using hk
        simp only [lookupKey, List.find?, hkf] at hl
        exact List.mem_cons_of_mem _ ((ih h.2).mpr hl)

lemma bumpFold_append_one {α : Type} (upd : List α → α → List α)
    (evts : List (String × α)) (q : String × α) :
    bumpFold upd (evts ++ [q]) = bumpKey upd (bumpFold upd evts) q.1 q.2 := by
  simp [bumpFold, List.foldl_append]

lemma bumpFold_keysNodup {α : Type} (upd : List α → α → List α)
    (evts : List (String × α)) : ((bumpFold upd evts).map Prod.fst).Nodup := by
  induction evts using List.reverseRecOn with
  | nil => simp [bumpFold]
  | append_singleton evts q ih =>
    rw [bumpFold_append_one]
    exact bumpKey_keysNodup upd _ _ _ ih

lemma foldl_push_eq {α : Type} (l : List α) :
    ∀ acc : List α, l.foldl (fun es e => es ++ [e]) acc = acc ++ l := by
  induction l with
  | nil => intro acc; simp
  | cons a rest ih =>
    intro acc
    rw [List.foldl_cons, ih]
    simp

lemma bumpFold_lookup {α : Type} (upd : List α → α → List α)
    (evts : List (String × α)) (k : String) :
    (evts.filter (fun q => q.1 == k) = [] ∧ lookupKey (bumpFold upd evts) k = none)
    ∨ (evts.filter (fun q => q.1 == k) ≠ []
       ∧ lookupKey (bumpFold upd evts) k
           = some (((evts.filter (fun q => q.1 == k)).map Prod.snd).foldl upd [])) := by
  induction evts using List.reverseRecOn with
  | nil => exact Or.inl ⟨rfl, by simp [bumpFold, lookupKey]⟩
  | append_singleton evts q ih =>
    by_cases hk : q.1 = k
    · subst hk
      have hf : (evts ++ [q]).filter (fun q2 => q2.1 == q.1)
          = evts.filter (fun q2 => q2.1 == q.1) ++ [q] := by
        simp [List.filter_append]
      refine Or.inr ⟨?_, ?_⟩
      · rw [hf]
        simp
      · rw [bumpFold_append_one, lookupKey_bumpKey_self, hf]
        rcases ih with ⟨hfil, hlook⟩ | ⟨hfil, hlook⟩
        · rw [hlook, hfil]
          simp
        · rw [hlook]
          simp [List.foldl_append]
    · have hqk : (q.1 == k) = false := by simpa using hk
      have hf : (evts ++ [q]).filter (fun q2 => q2.1 == k)
          = evts.filter (fun q2 => q2.1 == k) := by
        simp [List.filter_append, hqk]
      rw [bumpFold_append_one,
        lookupKey_bumpKey_other upd _ _ _ k (fun he => hk he.symm), hf]
      exact ih

lemma bumpFold_lookup_some {α : Type} (upd : List α → α → List α)
    (evts : List (String × α)) (k : String) (vs : List α)
    (h : lookupKey (bumpFold upd evts) k = some vs) :
    evts.filter (fun q => q.1 == k) ≠ []
    ∧ vs = ((evts.filter (fun q => q.1 == k)).map Prod.snd).foldl upd [] := by
  rcases bumpFold_lookup upd evts k with ⟨h1, h2⟩ | ⟨h1, h2⟩
  · rw [h2] at h
    cases h
  · rw [h2] at h
    injection h with h3
    exact ⟨h1, h3.symm⟩

lemma bumpFold_lookup_of_ne {α : Type} (upd : List α → α → List α)
    (evts : List (String × α)) (k : String)
    (h : evts.filter (fun q => q.1 == k) ≠ []) :
    lookupKey (bumpFold upd evts) k
      = some (((evts.filter (fun q => q.1 == k)).map Prod.snd).foldl upd []) := by
  rcases bumpFold_lookup upd evts k with ⟨h1, _⟩ | ⟨_, h2⟩
  · exact absurd h1 h
  · exact h2

/-- The exact-url pass output of `crossReference`. -/
def exactsOf (rs : List SourceResult) : List CrossRef :=
  (crossMaps rs).1.filterMap
    (fun p => if 2 ≤ p.2.length then some (CrossRef.exactUrl p.1 p.2) else none)

/-- The similar-topic pass output of `crossReference`. -/
def simsOf (rs : List SourceResult) : List CrossRef :=
  (crossMaps rs).2.filterMap
    (fun p =>
      if 2 ≤ (dedupKeep (p.2.map (fun e => e.source))).length then
        some (CrossRef.similarTopic ((p.2.headD (TitleEntry.mk "" "" "")).title)
          (dedupKeep (p.2.map (fun e => e.source))) p.2)
      else none)

lemma crossReference_split (rs : List SourceResult) :
    crossReference rs = exactsOf rs ++ simsOf rs := rfl

lemma titleEvents_key_long (evts : List (String × Item)) :
    ∀ q ∈ titleEvents evts, 10 < q.1.length := by
  intro q hq
  obtain ⟨p, hp, hfp⟩ := List.mem_filterMap.mp hq
  by_cases hc : 10 < (titleKeyOf p.2).length
  · rw [if_pos hc] at hfp
    injection hfp with h1
    rw [← h1]
    exact hc
  · rw [if_neg hc] at hfp
    cases hfp

lemma exactUrl_mem_iff (rs : List SourceResult) (url : String) (ss : List String) :
    CrossRef.exactUrl url ss ∈ crossReference rs
      ↔ (ss = dedupKeep (urlOccurrences rs url) ∧ 2 ≤ ss.length) := by
  rw [crossReference_split]
  constructor
  · intro hm
    rcases List.mem_append.mp hm with h1 | h1
    · obtain ⟨p, hp, hfp⟩ := List.mem_filterMap.mp h1
      obtain ⟨pk, pv⟩ := p
      by_cases hc : 2 ≤ pv.length
      · rw [if_pos hc] at hfp
        injection hfp with hinj
        injection hinj with hu hs
        subst hu
        subst hs
        rw [crossMaps_fst] at hp
        have hlook := (mem_iff_lookupKey _ (bumpFold_keysNodup _ _) pk pv).mp hp
        obtain ⟨hfil, hval⟩ := bumpFold_lookup_some setAdd _ pk pv hlook
        constructor
        · rw [hval]
          rfl
        · exact hc
      · rw [if_neg hc] at hfp
        cases hfp
    · obtain ⟨p, hp, hfp⟩ := List.mem_filterMap.mp h1
      by_cases hc : 2 ≤ (dedupKeep (p.2.map (fun e => e.source))).length
      · rw [if_pos hc] at hfp
        injection hfp with hinj
        exact CrossRef.noConfusion hinj
      · rw [if_neg hc] at hfp
        cases hfp
  · intro h
    obtain ⟨hss, hlen⟩ := h
    apply List.mem_append.mpr
    left
    apply List.mem_filterMap.mpr
    refine ⟨(url, ss), ?_, ?_⟩
    · rw [crossMaps_fst]
      apply (mem_iff_lookupKey _ (bumpFold_keysNodup _ _) url ss).mpr
      have hocc : urlOccurrences rs url ≠ [] := by
        intro h0
        rw [h0] at hss
        rw [hss] at hlen
        simp [dedupKeep] at hlen
      have hfil : (urlEvents (sourceEvents rs)).filter (fun q => q.1 == url) ≠ [] := by
        intro h0
        apply hocc
        simp [urlOccurrences, h0]
      rw [bumpFold_lookup_of_ne setAdd _ url hfil, hss]
      rfl
    · rw [if_pos hlen]

lemma similar_mem_iff (rs : List SourceResult) (t : String) (ss : List String)
    (items : List TitleEntry) :
    CrossRef.similarTopic t ss items ∈ crossReference rs
      ↔ ∃ key, 10 < key.length ∧ items ≠ []
          ∧ items = titleEntriesOf rs key
          ∧ t = (items.headD (TitleEntry.mk "" "" "")).title
          ∧ ss = dedupKeep (items.map (fun e => e.source))
          ∧ 2 ≤ ss.length := by
  rw [crossReference_split]
  constructor
  · intro hm
    rcases List.mem_append.mp hm with h1 | h1
    · obtain ⟨p, hp, hfp⟩ := List.mem_filterMap.mp h1
      by_cases hc : 2 ≤ p.2.length
      · rw [if_pos hc] at hfp
        injection hfp with hinj
        exact CrossRef.noConfusion hinj
      · rw [if_neg hc] at hfp
        cases hfp
    · obtain ⟨p, hp, hfp⟩ := List.mem_filterMap.mp h1
      obtain ⟨pk, pv⟩ := p
      by_cases hc : 2 ≤ (dedupKeep (pv.map (fun e => e.source))).length
      · rw [if_pos hc] at hfp
        injection hfp with hinj
        injection hinj with ht hss hitems
        subst hitems
        subst ht
        subst hss
        rw [crossMaps_snd] at hp
        have hlook := (mem_iff_lookupKey _ (bumpFold_keysNodup _ _) pk pv).mp hp
        obtain ⟨hfil, hval⟩ := bumpFold_lookup_some _ _ pk pv hlook
        have hpv : pv = titleEntriesOf rs pk := by
          rw [hval, foldl_push_eq, List.nil_append]
          rfl
        have hne : pv ≠ [] := by
          rw [hpv]
          intro h0
          apply hfil
          simp only [titleEntriesOf, List.map_eq_nil_iff] at h0
          exact h0
        have hklen : 10 < pk.length := by
          obtain ⟨q, hq⟩ := List.exists_mem_of_ne_nil _ hfil
          have hqmem := List.mem_of_mem_filter hq
          have hqk : q.1 = pk := by
            have hb := List.of_mem_filter hq
            simpa using hb
          rw [← hqk]
          exact titleEvents_key_long _ q hqmem
        exact ⟨pk, hklen, hne, hpv, rfl, rfl, hc⟩
      · rw [if_neg hc] at hfp
        cases hfp
  · rintro ⟨key, hklen, hne, hitems, ht, hss, hlen⟩
    apply List.mem_append.mpr
    right
    apply List.mem_filterMap.mpr
    refine ⟨(key, items), ?_, ?_⟩
    · rw [crossMaps_snd]
      apply (mem_iff_lookupKey _ (bumpFold_keysNodup _ _) key items).mpr
      have hfil : (titleEvents (sourceEvents rs)).filter (fun q => q.1 == key) ≠ [] := by
        intro h0
        apply hne
        rw [hitems]
        simp [titleEntriesOf, h0]
      rw [bumpFold_lookup_of_ne _ _ key hfil, foldl_push_eq, List.nil_append, hitems]
      rfl
    · have hc : 2 ≤ (dedupKeep (items.map (fun e => e.source))).length := by
        rw [hss] at hlen
        exact hlen
      rw [if_pos hc, ← ht, ← hss]

lemma exactsOf_all_exact (rs : List SourceResult) :
    ∀ c ∈ exactsOf rs, ∃ u s2, c = CrossRef.exactUrl u s2 := by
  intro c hc
  obtain ⟨p, hp, hfp⟩ := List.mem_filterMap.mp hc
  by_cases h : 2 ≤ p.2.length
  · rw [if_pos h] at hfp
    injection hfp with h1
    exact ⟨p.1, p.2, h1.symm⟩
  · rw [if_neg h] at hfp
    cases hfp

lemma simsOf_all_sim (rs : List SourceResult) :
    ∀ c ∈ simsOf rs, ∃ t s2 its, c = CrossRef.similarTopic t s2 its := by
  intro c hc
  obtain ⟨p, hp, hfp⟩ := List.mem_filterMap.mp hc
  by_cases h : 2 ≤ (dedupKeep (p.2.map (fun e => e.source))).length
  · rw [if_pos h] at hfp
    injection hfp with h1
    exact ⟨_, _, _, h1.symm⟩
  · rw [if_neg h] at hfp
    cases hfp

lemma exactUrlKeys_nil_of_sims (l : List CrossRef)
    (h : ∀ c ∈ l, ∃ t s2 its, c = CrossRef.similarTopic t s2 its) :
    exactUrlKeys l = [] := by
  induction l with
  | nil => rfl
  | cons c rest ih =>
    obtain ⟨t, s2, its, hc⟩ := h c (List.mem_cons_self _ _)
    subst hc
    have hstep : exactUrlKeys (CrossRef.similarTopic t s2 its :: rest)
        = exactUrlKeys rest := rfl
    rw [hstep]
    exact ih (fun c2 hc2 => h c2 (List.mem_cons_of_mem _ hc2))

lemma exactKeys_sublist_keys (m : List (String × List String)) :
    List.Sublist
      (exactUrlKeys (m.filterMap
        (fun p => if 2 ≤ p.2.length then some (CrossRef.exactUrl p.1 p.2) else none)))
      (m.map Prod.fst) := by
  induction m with
  | nil => simp [exactUrlKeys]
  | cons p rest ih =>
    by_cases h : 2 ≤ p.2.length
    · have h1 : exactUrlKeys ((p :: rest).filterMap
          (fun p => if 2 ≤ p.2.length then some (CrossRef.exactUrl p.1 p.2) else none))
          = p.1 :: exactUrlKeys (rest.filterMap
            (fun p => if 2 ≤ p.2.length then some (CrossRef.exactUrl p.1 p.2) else none)) := by
        rw [List.filterMap_cons, if_pos h]
        rfl
      rw [h1, List.map_cons]
      exact List.Sublist.cons₂ _ ih
    · have h1 : exactUrlKeys ((p :: rest).filterMap
          (fun p => if 2 ≤ p.2.length then some (CrossRef.exactUrl p.1 p.2) else none))
          = exactUrlKeys (rest.filterMap
            (fun p => if 2 ≤ p.2.length then some (CrossRef.exactUrl p.1 p.2) else none)) := by
        rw [List.filterMap_cons, if_neg h]
      rw [h1, List.map_cons]
      exact List.Sublist.cons _ ih

lemma exactUrlKeys_nodup (rs : List SourceResult) :
    (exactUrlKeys (crossReference rs)).Nodup := by
  rw [crossReference_split]
  have happ : exactUrlKeys (exactsOf rs ++ simsOf rs)
      = exactUrlKeys (exactsOf rs) ++ exactUrlKeys (simsOf rs) := by
    simp [exactUrlKeys, List.filterMap_append]
  rw [happ, exactUrlKeys_nil_of_sims _ (simsOf_all_sim rs), List.append_nil]
  have hsub := exactKeys_sublist_keys (crossMaps rs).1
  have hnd : ((crossMaps rs).1.map Prod.fst).Nodup := by
    rw [crossMaps_fst]
    exact bumpFold_keysNodup _ _
  exact List.Nodup.sublist hsub hnd

/-- C7: `crossReference` returns the exact-url pass followed by the
similar-topic pass, both computed over the same input.  An `exact-url` entry
for `url` with source set `ss` appears iff `ss` is the insertion-ordered set
of distinct sources that produced an item with exactly that (non-empty) url
and there are at least two of them — and at most one entry exists per url.
A `similar-topic` entry appears iff there is a normalized title key (title or
text lower-cased, whitespace tokens longer than 4 characters, first five
joined, considered only when the joined key is longer than 10 characters)
whose recorded `(source, title, url)` entries are exactly the entry's items,
backed by at least two distinct sources, titled by the first item.  On the
spec's concrete scenario — one url in both `web` and `hn` — the output is
exactly one `exact-url` entry with sources `{web, hn}`. -/
theorem crossReference_matches_spec (rs : List SourceResult) :
    (∃ ex si, crossReference rs = ex ++ si
      ∧ (∀ c ∈ ex, ∃ u s2, c = CrossRef.exactUrl u s2)
      ∧ (∀ c ∈ si, ∃ t s2 its, c = CrossRef.similarTopic t s2 its))
    ∧ (∀ url ss, CrossRef.exactUrl url ss ∈ crossReference rs
        ↔ (ss = dedupKeep (urlOccurrences rs url) ∧ 2 ≤ ss.length))
    ∧ (exactUrlKeys (crossReference rs)).Nodup
    ∧ (∀ t ss items, CrossRef.similarTopic t ss items ∈ crossReference rs
        ↔ ∃ key, 10 < key.length ∧ items ≠ []
            ∧ items = titleEntriesOf rs key
            ∧ t = (items.headD (TitleEntry.mk "" "" "")).title
            ∧ ss = dedupKeep (items.map (fun e => e.source))
            ∧ 2 ≤ ss.length)
    ∧ crossReference crossRefExample
        = [CrossRef.exactUrl "https://x.example/a" ["web", "hn"]] :=
  ⟨⟨exactsOf rs, simsOf rs, crossReference_split rs,
    exactsOf_all_exact rs, simsOf_all_sim rs⟩,
   exactUrl_mem_iff rs,
   exactUrlKeys_nodup rs,
   similar_mem_iff rs,
   rfl⟩

/-- Witness for C7: in the concrete two-source scenario, the shared url is
reported as an exact-url cross-reference with sources `{web, hn}`, and the
url-membership characterization instantiates at it. -/
theorem crossReference_matches_spec_witness :
    crossReference crossRefExample
      = [CrossRef.exactUrl "https://x.example/a" ["web", "hn"]]
    ∧ CrossRef.exactUrl "https://x.example/a" ["web", "hn"]
        ∈ crossReference crossRefExample := by
  constructor
  · exact (crossReference_matches_spec []).2.2.2.2
  · exact ((crossReference_matches_spec crossRefExample).2.1
      "https://x.example/a" ["web", "hn"]).mpr ⟨rfl, by simp⟩
